import Mathlib

/-!
Verification development for the API-crawler repository.

The definitions below are shallow embeddings of the JavaScript sources:
* `src/mock-server/server.js` — the test endpoints (`/api/users`, `/api/posts`,
  `/api/comments`, `/api/flaky`);
* `src/frontend/src/components/RequestBuilder.jsx` — `buildHeaders` and
  `generateCurl`;
* `src/unnamed/part_001` (the jobs-list component) — `extractRequestFromJob`;
* `src/frontend/src/components/LiveLogViewer.jsx` — the stream `onmessage`
  handler.

Parts of the engine that are not in the source tree (the backend scheduler's
retry loop, the job-configuration validation and the pagination detector) are
modelled from the specification; each such definition says so in its doc
comment.

JavaScript numbers are modelled as `Nat`/`Int` (all the arithmetic involved
stays far from 2^53, so no overflow modelling is needed), JS `null`/absent as
`Option`, JS objects with string keys as insertion-ordered association lists.
Fields of the mock datasets that depend on wall-clock time or `Math.random()`
(`created_at`, `published_at`, `likes`, `comments_count`, `price`, `rating`)
are omitted: no claim mentions them and they are not functions of the input.
-/

set_option maxRecDepth 20000

/-- JS `Array.prototype.slice(s, e)` for nonnegative in-range arguments
(the only way the mock server calls it). -/
def jsSlice (l : List α) (s e : Nat) : List α := (l.drop s).take (e - s)

/-- JS `arr.slice(-n)` for `n > 0`: the last `n` elements (all of them when
the array is shorter). -/
def jsSliceLast (n : Nat) (l : List α) : List α := l.drop (l.length - n)

/-! ### Mock server datasets and handlers (src/mock-server/server.js) -/

/-- One record of the `/api/users` dataset (server.js `generateUsers`);
the wall-clock `created_at` field is omitted. -/
structure UserRec where
  id : Nat
  name : String
  email : String
  age : Nat
  city : String
  deriving DecidableEq

def cityNames : List String :=
  ["New York", "Los Angeles", "Chicago", "Houston", "Phoenix"]

def mkUser (i : Nat) : UserRec :=
  { id := i
    name := "User " ++ toString i
    email := "user" ++ toString i ++ "@example.com"
    age := 20 + i % 50
    city := cityNames.getD (i % 5) "" }

/-- server.js `generateUsers(count)`: records for `i = 1 .. count`. -/
def generateUsers (count : Nat) : List UserRec :=
  (List.range count).map (fun k => mkUser (k + 1))

/-- `const USERS = generateUsers(150)`. -/
def USERS : List UserRec := generateUsers 150

structure UsersPagination where
  currentPage : Nat
  perPage : Nat
  totalPages : Int
  totalItems : Nat
  deriving DecidableEq

structure UsersResponse where
  data : List UserRec
  pagination : UsersPagination
  deriving DecidableEq

/-- `GET /api/users` (server.js lines 85–102): page-based pagination over
`USERS`; `totalPages` is `Math.ceil(USERS.length / perPage)`, modelled as the
rational ceiling. -/
def usersHandler (page perPage : Nat) : UsersResponse :=
  let startIndex := (page - 1) * perPage
  let endIndex := startIndex + perPage
  { data := jsSlice USERS startIndex endIndex
    pagination :=
      { currentPage := page
        perPage := perPage
        totalPages := ⌈(USERS.length : ℚ) / (perPage : ℚ)⌉
        totalItems := USERS.length } }

/-- One record of the `/api/posts` dataset (server.js `generatePosts`);
the random `likes`/`comments_count` and wall-clock `published_at` fields are
omitted. -/
structure PostRec where
  id : Nat
  title : String
  body : String
  author_id : Nat
  deriving DecidableEq

def mkPost (i : Nat) : PostRec :=
  { id := i
    title := "Post Title " ++ toString i
    body := "This is the body content for post " ++ toString i ++
      ". It contains some sample text."
    author_id := i % 10 + 1 }

/-- server.js `generatePosts(count)`: records for `i = 1 .. count`. -/
def generatePosts (count : Nat) : List PostRec :=
  (List.range count).map (fun k => mkPost (k + 1))

/-- `const POSTS = generatePosts(500)`. -/
def POSTS : List PostRec := generatePosts 500

structure PostsMeta where
  offset : Nat
  limit : Nat
  total : Nat
  has_more : Bool
  deriving DecidableEq

structure PostsResponse where
  items : List PostRec
  meta : PostsMeta
  deriving DecidableEq

/-- `GET /api/posts` (server.js lines 141–156): offset-based pagination over
`POSTS`; `has_more: offset + limit < POSTS.length`. -/
def postsHandler (offset limit : Nat) : PostsResponse :=
  { items := jsSlice POSTS offset (offset + limit)
    meta :=
      { offset := offset
        limit := limit
        total := POSTS.length
        has_more := decide (offset + limit < POSTS.length) } }

/-- One record of the `/api/comments` response (server.js lines 200–222);
the wall-clock `created_at` field is omitted.  `i` is the 0-based loop
index. -/
structure CommentRec where
  id : Nat
  post_id : Nat
  user_id : Nat
  content : String
  deriving DecidableEq

def mkComment (i : Nat) : CommentRec :=
  { id := i + 1
    post_id := i % 50 + 1
    user_id := i % 30 + 1
    content := "This is comment " ++ toString (i + 1) ++ ". Great post!" }

structure CommentsResponse where
  data : List CommentRec
  next_cursor : Option Nat
  has_more : Bool
  deriving DecidableEq

/-- `GET /api/comments` (server.js lines 200–222): cursor pagination over a
300-item dataset; `nextCursor = cursor + limit < 300 ? cursor + limit : null`
and `has_more: nextCursor !== null`. -/
def commentsHandler (cursor limit : Nat) : CommentsResponse :=
  let endIdx := min (cursor + limit) 300
  let nextCursor : Option Nat :=
    if cursor + limit < 300 then some (cursor + limit) else none
  { data := (List.range (endIdx - cursor)).map (fun j => mkComment (cursor + j))
    next_cursor := nextCursor
    has_more := nextCursor.isSome }

/-- One data record of a successful `/api/flaky` response; the wall-clock
`timestamp` field is omitted. -/
structure FlakyItem where
  id : Nat
  value : String
  deriving DecidableEq

inductive FlakyResp where
  | errorResp (attempt : Nat)
  | okResp (page : Nat) (data : List FlakyItem)
  deriving DecidableEq

/-- `GET /api/flaky` (server.js lines 356–384): increments the module-global
`flakyCallCount` and returns HTTP 500 whenever the new count is not a multiple
of 3, HTTP 200 otherwise.  The global counter is passed and returned
explicitly. -/
def flakyHandler (flakyCallCount : Nat) (page : Nat) : Nat × FlakyResp :=
  let c := flakyCallCount + 1
  if c % 3 ≠ 0 then (c, .errorResp c)
  else
    let limit := 10
    let startId := (page - 1) * limit + 1
    let data := ((List.range limit).takeWhile (fun i => startId + i ≤ 50)).map
      (fun i => { id := startId + i, value := "Item " ++ toString (startId + i) })
    (c, .okResp page data)

/-- Outcome of repeatedly fetching one page with the retry policy. -/
structure RetryTrace where
  warnings : Nat
  backoffs : List Nat
  retry_count : Nat
  succeeded : Bool
  deriving DecidableEq

/-- Modelled from the spec: the Scheduler's per-page fetch/retry loop (the
backend `services/crawler.py` is not under src/).  Spec §4.4: on success
(2xx) reset `retry_count` to 0; on failure increment `retry_count`; if it is
still `< 3`, wait `backoff = 2^retry_count` seconds, log a warning and retry
the same page; at 3 the job fails.  The fetch is the `/api/flaky` handler
with its explicit call counter; page 1 is fetched throughout, matching "retry
the *same* page". -/
def fetchWithRetries : Nat → Nat → Nat → Nat → List Nat → Nat × RetryTrace
  | 0, cc, rc, w, bs => (cc, ⟨w, bs.reverse, rc, false⟩)
  | fuel + 1, cc, rc, w, bs =>
    match flakyHandler cc 1 with
    | (cc2, .okResp _ _) => (cc2, ⟨w, bs.reverse, 0, true⟩)
    | (cc2, .errorResp _) =>
      let rc2 := rc + 1
      if rc2 < 3 then fetchWithRetries fuel cc2 rc2 (w + 1) (2 ^ rc2 :: bs)
      else (cc2, ⟨w, bs.reverse, rc2, false⟩)

/-! ### Job configuration validation (modelled from the spec) -/

structure JobConfig where
  curl_command : String
  table_name : String
  start_interval : Int
  end_interval : Int
  randomize_interval : Bool
  max_pages : Option Int
  start_date : Option Int
  end_date : Option Int
  deriving DecidableEq

structure Job where
  config : JobConfig
  status : String
  deriving DecidableEq

/-- Modelled from the spec: the backend's job-configuration validation (the
FastAPI schema/router under `backend/app` is not under src/; the two frontend
`handleStartCrawl` functions only forward the config).  Spec §6 requires
`start_interval: int≥1, end_interval: int≥start_interval`; §8: "Configs with
start_interval > end_interval are rejected before Job creation, for all
inputs."  A `Job` value is only built after validation passes. -/
def createJob (cfg : JobConfig) : Except String Job :=
  if cfg.start_interval < 1 then
    Except.error "start_interval must be at least 1"
  else if cfg.end_interval < cfg.start_interval then
    Except.error "end_interval must be at least start_interval"
  else
    Except.ok { config := cfg, status := "pending" }

/-- Whether `createJob` produced a `Job` for this configuration. -/
def jobCreated (cfg : JobConfig) : Bool :=
  match createJob cfg with
  | Except.ok _ => true
  | Except.error _ => false

/-! ### Pagination detection (modelled from the spec) -/

inductive PaginationType where
  | cursor
  | offset
  | page
  | noPagination
  deriving DecidableEq

/-- The validation sample the detector inspects: the names of the request's
query parameters, the top-level field names of the JSON response, and whether
the response has a nested next-link field (such as `links.next`). -/
structure Sample where
  requestParams : List String
  responseFields : List String
  hasNestedNextLink : Bool
  deriving DecidableEq

/-- ASCII lower-casing (String.toLower restricted to ASCII), used for the
detector's case-insensitive field-name comparison. -/
def lowerChar (c : Char) : Char :=
  if 'A' ≤ c ∧ c ≤ 'Z' then Char.ofNat (c.toNat + 32) else c

def lowerStr (s : String) : String := (s.toList.map lowerChar).asString

def cursorFieldNames : List String := ["next_cursor", "nexttoken", "continuation"]

def cursorParamNames : List String := ["cursor", "after", "next_token", "continuation"]

def offsetParamNames : List String := ["offset", "skip", "start"]

def limitParamNames : List String := ["limit", "take"]

def pageParamNames : List String := ["page", "p", "pageNumber", "page_number"]

/-- Modelled from the spec: the pagination detector (backend
`services/pagination.py` is not under src/).  Spec §4.2 — fixed precedence,
first match wins: cursor (response has a continuation-token field, compared
case-insensitively, or a nested next-link, or the request carries a
cursor-style parameter), then offset (`offset`/`skip`/`start` paired with
`limit`/`take`), then page (`page`/`p`/`pageNumber`/`page_number`), else
none. -/
def detect (s : Sample) : PaginationType :=
  if s.responseFields.any (fun f => cursorFieldNames.contains (lowerStr f))
      || s.hasNestedNextLink
      || s.requestParams.any (fun p => cursorParamNames.contains p) then
    .cursor
  else if (s.requestParams.any (fun p => offsetParamNames.contains p)
      || s.responseFields.any (fun f => offsetParamNames.contains f))
      && (s.requestParams.any (fun p => limitParamNames.contains p)
      || s.responseFields.any (fun f => limitParamNames.contains f)) then
    .offset
  else if s.requestParams.any (fun p => pageParamNames.contains p) then
    .page
  else
    .noPagination

/-! ### RequestBuilder.jsx: buildHeaders and generateCurl -/

/-- One key/value row of the builder's headers (or params) table. -/
structure HeaderRow where
  key : String
  value : String
  enabled : Bool
  deriving DecidableEq

structure AuthConfig where
  bearerToken : String
  basicUsername : String
  basicPassword : String
  apiKeyName : String
  apiKeyValue : String
  apiKeyLocation : String
  deriving DecidableEq

/-- Assignment `obj[k] = v` on a JS object modelled as an insertion-ordered
association list: an existing key keeps its position and gets the new value,
a new key is appended. -/
def objSet (l : List (String × String)) (k v : String) : List (String × String) :=
  if l.any (fun p => p.1 == k) then
    l.map (fun p => if p.1 == k then (p.1, v) else p)
  else
    l ++ [(k, v)]

def base64Alphabet : List Char :=
  "ABCDEFGHIJKLMNOPQRSTUVWXYZabcdefghijklmnopqrstuvwxyz0123456789+/".toList

def b64Char (n : Nat) : Char := base64Alphabet.getD n 'A'

/-- Base64-encode a byte list, 3 bytes → 4 sextets, `=`-padded. -/
def base64Chunks : List Nat → List Char
  | [] => []
  | [a] => [b64Char (a / 4), b64Char (a % 4 * 16), '=', '=']
  | [a, b] => [b64Char (a / 4), b64Char (a % 4 * 16 + b / 16), b64Char (b % 16 * 4), '=']
  | a :: b :: c :: rest =>
    b64Char (a / 4) :: b64Char (a % 4 * 16 + b / 16) ::
      b64Char (b % 16 * 4 + c / 64) :: b64Char (c % 64) :: base64Chunks rest

/-- Browser `btoa` (on the UTF-8 bytes; the builder only feeds it ASCII
credentials, where this coincides with the latin-1 reading `btoa` uses). -/
def btoa (s : String) : String :=
  (base64Chunks (s.toUTF8.toList.map (fun b => b.toNat))).asString

/-- RequestBuilder.jsx `buildHeaders` (lines 107–133): builds the header
object from the enabled rows with truthy (non-empty) keys, then the auth
header, then the body content type.  Assignment into the JS object is
`objSet`: exact-key overwrite in place, otherwise append. -/
def buildHeaders (authType : String) (ac : AuthConfig) (bodyType : String)
    (headers : List HeaderRow) : List (String × String) :=
  let hdrs := (headers.filter (fun h => h.enabled && h.key != "")).foldl
    (fun acc h => objSet acc h.key h.value) []
  let hdrs :=
    if authType = "bearer" ∧ ac.bearerToken ≠ "" then
      objSet hdrs "Authorization" ("Bearer " ++ ac.bearerToken)
    else if authType = "basic" ∧ ac.basicUsername ≠ "" then
      objSet hdrs "Authorization"
        ("Basic " ++ btoa (ac.basicUsername ++ ":" ++ ac.basicPassword))
    else if authType = "apikey" ∧ ac.apiKeyLocation = "header" then
      objSet hdrs ac.apiKeyName ac.apiKeyValue
    else hdrs
  if bodyType = "json" then objSet hdrs "Content-Type" "application/json"
  else if bodyType = "form" then objSet hdrs "Content-Type" "multipart/form-data"
  else if bodyType = "urlencoded" then
    objSet hdrs "Content-Type" "application/x-www-form-urlencoded"
  else hdrs

/-- The single-quote character, written by code point to keep source scanning
simple. -/
def sqChar : Char := Char.ofNat 39

/-- The ` \\\n  -H "key: value"` block `generateCurl` appends per header. -/
def hdrBlock (k v : List Char) : List Char :=
  [' ', '\\', '\n', ' ', ' ', '-', 'H', ' ', '"'] ++ k ++ [':', ' '] ++ v ++ ['"']

/-- The ` \\\n  -X METHOD` block. -/
def methodBlock (m : List Char) : List Char :=
  [' ', '\\', '\n', ' ', ' ', '-', 'X', ' '] ++ m

/-- The ` \\\n  -d 'body'` block. -/
def bodyBlock (b : List Char) : List Char :=
  [' ', '\\', '\n', ' ', ' ', '-', 'd', ' ', sqChar] ++ b ++ [sqChar]

def getChars : List Char := ['G', 'E', 'T']

/-- RequestBuilder.jsx `generateCurl` (lines 152–172), starting from the
values of `buildFullUrl()`, `buildHeaders()` and `buildBody()` (the method,
full URL string, header object entries and optional body).  `-X` is emitted
only for non-GET, `-d` only when a truthy body and a non-GET method are both
present. -/
def genCurlList (method url : List Char) (hdrs : List (List Char × List Char))
    (body : Option (List Char)) : List Char :=
  let c := ['c', 'u', 'r', 'l', ' ', '"'] ++ url ++ ['"']
  let c := if method ≠ getChars then c ++ methodBlock method else c
  let c := hdrs.foldl (fun acc kv => acc ++ hdrBlock kv.1 kv.2) c
  match body with
  | some b => if b ≠ [] ∧ method ≠ getChars then c ++ bodyBlock b else c
  | none => c

/-- String-level wrapper for `genCurlList`. -/
def generateCurl (method fullUrl : String) (hdrs : List (String × String))
    (body : Option String) : String :=
  (genCurlList method.toList fullUrl.toList
    (hdrs.map (fun kv => (kv.1.toList, kv.2.toList))) (body.map String.toList)).asString

/-- The concatenation of the per-header `-H` blocks, the value of the
`forEach` fold in `generateCurl`. -/
def hdrsJoin (hdrs : List (List Char × List Char)) : List Char :=
  (hdrs.map (fun kv => hdrBlock kv.1 kv.2)).join


/-! ### The jobs-list cURL extractor (src/unnamed/part_001, lines 22–64)

`extractRequestFromJob` reads the method, URL and headers back out of the
stored cURL command with three regexes:
`-X\s+(\w+)`, `curl\s+"([^"]+)" | curl single-quoted | curl\s+(\S+)` and
`-H\s+"([^"]+)"` (global).  The scanners below implement exactly these patterns
(leftmost match, greedy runs, alternatives tried in order, `/g` resuming
after each match). -/

/-- JS `\s` on the ASCII range. -/
def isJsWS (c : Char) : Bool :=
  c == ' ' || c == '\t' || c == '\n' || c == '\r' || c == '\x0b' || c == '\x0c'

/-- JS `\w`: `[A-Za-z0-9_]`. -/
def isWordCh (c : Char) : Bool := c.isAlphanum || c == '_'

/-- Try `-X\s+(\w+)` anchored at the start of `l`; returns the capture. -/
def matchMethodAt : List Char → Option (List Char)
  | c1 :: c2 :: rest =>
    if c1 = '-' ∧ c2 = 'X' then
      let ws := rest.takeWhile isJsWS
      if ws.isEmpty then none
      else
        let w := (rest.dropWhile isJsWS).takeWhile isWordCh
        if w.isEmpty then none else some w
    else none
  | _ => none

/-- `str.match` on the method pattern `-X\s+(\w+)`: first position, scanning
left to right, where the pattern matches. -/
def findMethodMatch : List Char → Option (List Char)
  | [] => none
  | c :: rest =>
    match matchMethodAt (c :: rest) with
    | some w => some w
    | none => findMethodMatch rest

/-- One quoted alternative `q([^q]+)q` of the URL regex, applied after
`curl\s+` has been consumed. -/
def urlAltQuoted (q : Char) (t : List Char) : Option (List Char) :=
  match t with
  | c :: t2 =>
    if c = q then
      let cap := t2.takeWhile (fun x => x != q)
      match t2.dropWhile (fun x => x != q) with
      | c2 :: _ => if cap.isEmpty then none else if c2 = q then some cap else none
      | [] => none
    else none
  | [] => none

/-- The bare alternative `(\S+)` of the URL regex. -/
def urlAltBare (t : List Char) : Option (List Char) :=
  let cap := t.takeWhile (fun x => !isJsWS x)
  if cap.isEmpty then none else some cap

/-- Try `curl\s+"([^"]+)" | curl single-quoted | curl\s+(\S+)` anchored at the
start of `l`; alternatives are tried in order, as a regex engine does. -/
def matchUrlAt : List Char → Option (List Char)
  | c1 :: c2 :: c3 :: c4 :: rest =>
    if c1 = 'c' ∧ c2 = 'u' ∧ c3 = 'r' ∧ c4 = 'l' then
      let ws := rest.takeWhile isJsWS
      if ws.isEmpty then none
      else
        let t := rest.dropWhile isJsWS
        (urlAltQuoted '"' t <|> urlAltQuoted sqChar t) <|> urlAltBare t
    else none
  | _ => none

/-- Leftmost match of the URL regex. -/
def findUrlMatch : List Char → Option (List Char)
  | [] => none
  | c :: rest =>
    match matchUrlAt (c :: rest) with
    | some u => some u
    | none => findUrlMatch rest

/-- The `([^"]+)"` tail of the header pattern, applied to the text after the
opening quote: the greedy non-quote capture (required non-empty) and then the
closing quote; returns the capture and the remainder after that quote. -/
def headerQuoted (t2 : List Char) : Option (List Char × List Char) :=
  match t2.dropWhile (fun x => x != '"') with
  | q2 :: rem2 =>
    if (t2.takeWhile (fun x => x != '"')).isEmpty then none
    else if q2 = '"' then some (t2.takeWhile (fun x => x != '"'), rem2)
    else none
  | [] => none

/-- Try `-H\s+"([^"]+)"` anchored at the start of `l`; returns the capture
and the remainder after the closing quote (the `/g` `lastIndex` position). -/
def matchHeaderAt : List Char → Option (List Char × List Char)
  | c1 :: c2 :: rest =>
    if c1 = '-' ∧ c2 = 'H' then
      if (rest.takeWhile isJsWS).isEmpty then none
      else
        match rest.dropWhile isJsWS with
        | q :: t2 => if q = '"' then headerQuoted t2 else none
        | [] => none
    else none
  | _ => none

/-- Fuel-driven `matchAll on -H\s+"([^"]+)"`: scan left to right, resuming
after each match.  Each step consumes at least one character, so fuel equal
to the length of the list always suffices. -/
def findHeadersAux : Nat → List Char → List (List Char)
  | 0, _ => []
  | _ + 1, [] => []
  | fuel + 1, c :: rest =>
    match matchHeaderAt (c :: rest) with
    | some (cap, rem) => cap :: findHeadersAux fuel rem
    | none => findHeadersAux fuel rest

/-- All captures of `matchAll on -H\s+"([^"]+)"` in order. -/
def findHeaders (l : List Char) : List (List Char) := findHeadersAux l.length l

/-- JS `String.prototype.split(':')` on a character list. -/
def splitOnColon : List Char → List (List Char)
  | [] => [[]]
  | c :: rest =>
    if c = ':' then [] :: splitOnColon rest
    else
      let r := splitOnColon rest
      (c :: r.headD []) :: r.tail

/-- JS `parts.join(':')`. -/
def joinColon : List (List Char) → List Char
  | [] => []
  | [x] => x
  | x :: y :: xs => x ++ ':' :: joinColon (y :: xs)

/-- JS `String.prototype.trim()` restricted to ASCII whitespace. -/
def jsTrim (l : List Char) : List Char :=
  ((l.dropWhile isJsWS).reverse.dropWhile isJsWS).reverse

/-- The saved-request object `extractRequestFromJob` returns (the constant
`params: []`, `authConfig: {}` and `formData: []` fields are left out). -/
structure SavedRequest where
  name : String
  method : String
  url : String
  headers : List HeaderRow
  authType : String
  bodyType : String
  jsonBody : String
  deriving DecidableEq

/-- The per-capture step of the header loop: `split(':')`, keep the row only
when the raw first part is truthy, trim the key, re-join and trim the rest as
the value. -/
def extractHeaderRow (content : List Char) : Option HeaderRow :=
  match splitOnColon content with
  | [] => none
  | keyPart :: valueParts =>
    if keyPart.isEmpty then none
    else some
      { key := (jsTrim keyPart).asString
        value := (jsTrim (joinColon valueParts)).asString
        enabled := true }

/-- `extractRequestFromJob` (src/unnamed/part_001 lines 22–64): `null` for a
falsy `curl_command`, else the method from the `-X` regex (default `GET`),
the URL from the first matching alternative of the URL regex, and one header
row per `-H "..."` capture. -/
def extractRequestFromJob (tableName curlCommand : String) : Option SavedRequest :=
  if curlCommand = "" then none
  else
    let l := curlCommand.toList
    let method :=
      match findMethodMatch l with
      | some w => w.asString
      | none => "GET"
    let url :=
      match findUrlMatch l with
      | some u => u.asString
      | none => ""
    let headers := (findHeaders l).filterMap extractHeaderRow
    some
      { name := if tableName = "" then "Saved Request" else tableName
        method := method
        url := url
        headers := headers
        authType := "none"
        bodyType := "none"
        jsonBody := "" }

/-- `pat` occurs as a contiguous run somewhere in `l`. -/
def containsSeq (pat l : List Char) : Bool :=
  l.tails.any (fun t => pat.isPrefixOf t)

/-- Side conditions on one header row under which the cURL round trip
(`generateCurl` then `extractRequestFromJob`) recovers it exactly: non-empty
name, no double quote anywhere (it would close the `-H "..."` argument
early), no colon in the name (the extractor splits on the first colon), name
and value already trimmed (the extractor trims both sides), and the emitted
`key: value` text must not itself contain a match of the method pattern
`-X\s+\w` (the extractor scans the whole command for it).  All conditions
are decidable, so concrete rows can be checked by `decide`. -/
def HeaderOk (k v : List Char) : Prop :=
  k ≠ [] ∧ (∀ c ∈ k, c ≠ '"' ∧ c ≠ ':') ∧ (∀ c ∈ v, c ≠ '"') ∧
    jsTrim k = k ∧ jsTrim v = v ∧
    findMethodMatch ((k ++ ':' :: ' ' :: v) ++ ['"']) = none

instance (k v : List Char) : Decidable (HeaderOk k v) := by
  unfold HeaderOk
  infer_instance

/-- A concrete stored cURL command carrying a body flag (`-d`) and no
method flag. -/
def bodyFlagCmd : String :=
  "curl \"http://example.com/data\" -d " ++ sqChar.toString ++ "a=1" ++ sqChar.toString

/-! ### LiveLogViewer.jsx stream handler (lines 40–49) -/

/-- A successfully `JSON.parse`d stream message; `job_id` is `none` when the
field is absent or `null`. -/
structure ParsedLog where
  job_id : Option String
  level : String
  message : String
  deriving DecidableEq

/-- Truthiness of `log.job_id`. -/
def jobIdTruthy (l : ParsedLog) : Bool :=
  match l.job_id with
  | some s => s != ""
  | none => false

/-- The `eventSource.onmessage` handler acting on the `logs` state: a message
that fails to parse (`none` — e.g. a keepalive) is dropped by the catch
block; a parsed message with a falsy `job_id` is ignored; otherwise the entry
is appended and the list truncated to its last 500 elements. -/
def onStreamMessage (prev : List ParsedLog) (msg : Option ParsedLog) : List ParsedLog :=
  match msg with
  | none => prev
  | some log => if jobIdTruthy log then jsSliceLast 500 (prev ++ [log]) else prev

/-- The parsed messages the handler actually keeps, in arrival order. -/
def validStreamLogs (msgs : List (Option ParsedLog)) : List ParsedLog :=
  msgs.filterMap (fun m =>
    match m with
    | some log => if jobIdTruthy log then some log else none
    | none => none)

/-! ## Theorems -/

/-! ### Generic list helpers -/

theorem takeWhile_of_all {p : α → Bool} {xs : List α}
    (h : ∀ c ∈ xs, p c = true) : xs.takeWhile p = xs := by
  induction xs with
  | nil => rfl
  | cons a xs ih =>
    rw [List.takeWhile_cons_of_pos (h a (by simp))]
    rw [ih (fun c hc => h c (by simp [hc]))]

theorem dropWhile_of_all {p : α → Bool} {xs : List α}
    (h : ∀ c ∈ xs, p c = true) : xs.dropWhile p = [] := by
  induction xs with
  | nil => rfl
  | cons a xs ih =>
    rw [List.dropWhile_cons_of_pos (h a (by simp))]
    exact ih (fun c hc => h c (by simp [hc]))

theorem takeWhile_append_stop {p : α → Bool} {c : α} (xs ys : List α)
    (hc : p c = false) : (xs ++ c :: ys).takeWhile p = xs.takeWhile p := by
  induction xs with
  | nil => simp [List.takeWhile_cons_of_neg, hc]
  | cons a xs ih =>
    by_cases ha : p a = true
    · simp only [List.cons_append, List.takeWhile_cons_of_pos ha, ih]
    · rw [List.cons_append, List.takeWhile_cons_of_neg ha, List.takeWhile_cons_of_neg ha]

theorem dropWhile_append_stop {p : α → Bool} {c : α} (xs ys : List α)
    (hc : p c = false) : (xs ++ c :: ys).dropWhile p = xs.dropWhile p ++ c :: ys := by
  induction xs with
  | nil => simp [List.dropWhile_cons_of_neg, hc]
  | cons a xs ih =>
    by_cases ha : p a = true
    · simp only [List.cons_append, List.dropWhile_cons_of_pos ha, ih]
    · rw [List.cons_append, List.dropWhile_cons_of_neg ha, List.dropWhile_cons_of_neg ha,
        List.cons_append]

theorem takeWhile_run_stop {p : α → Bool} {c : α} (xs ys : List α)
    (hxs : ∀ x ∈ xs, p x = true) (hc : p c = false) :
    (xs ++ c :: ys).takeWhile p = xs := by
  rw [takeWhile_append_stop xs ys hc, takeWhile_of_all hxs]

theorem dropWhile_run_stop {p : α → Bool} {c : α} (xs ys : List α)
    (hxs : ∀ x ∈ xs, p x = true) (hc : p c = false) :
    (xs ++ c :: ys).dropWhile p = c :: ys := by
  rw [dropWhile_append_stop xs ys hc, dropWhile_of_all hxs, List.nil_append]

/-! ### C1: the cursor-paginated comments source -/

/-- C1.  For the `/api/comments` handler with cursor `c` and limit `n ≥ 1`,
`has_more` is `false` iff `next_cursor` is `null`, and `next_cursor` is
`null` exactly when `c + n ≥ 300`, the end of the 300-comment dataset. -/
theorem comments_cursor_termination (c n : Nat) (hn : 1 ≤ n) :
    ((commentsHandler c n).has_more = false ↔ (commentsHandler c n).next_cursor = none) ∧
    ((commentsHandler c n).next_cursor = none ↔ 300 ≤ c + n) := by
  by_cases h : c + n < 300 <;> simp [commentsHandler, h] <;> omega

/-- Witness for C1 at cursor 280, limit 20: the boundary where the cursor
source terminates. -/
theorem comments_cursor_termination_witness :
    (1 ≤ 20) ∧
    (((commentsHandler 280 20).has_more = false ↔ (commentsHandler 280 20).next_cursor = none) ∧
      ((commentsHandler 280 20).next_cursor = none ↔ 300 ≤ 280 + 20)) :=
  ⟨by decide, comments_cursor_termination 280 20 (by decide)⟩

/-! ### C2: the flaky source and the retry loop -/

/-- C2.  Running the spec's retry loop against a fresh `/api/flaky` endpoint
(global call count 0): the first two fetches fail, the third succeeds, and
the trace shows exactly 2 warnings, backoff delays of 2 then 4 seconds, and
`retry_count` reset to 0 after the success.  The first component is the
endpoint's call counter after the three calls. -/
theorem flaky_retry_trace :
    fetchWithRetries 3 0 0 0 [] =
      (3, { warnings := 2, backoffs := [2, 4], retry_count := 0, succeeded := true }) := by
  decide

/-! ### C3: the page-paginated users source -/

theorem USERS_length : USERS.length = 150 := by
  simp [USERS, generateUsers]

/-- The rational ceiling of `a / b` is the rounded-up natural division. -/
theorem ceil_ratCast_div (a b : Nat) (hb : 1 ≤ b) :
    ⌈(a : ℚ) / (b : ℚ)⌉ = ((a + b - 1) / b : ℕ) := by
  have hb0 : 0 < b := hb
  have hbq : (0 : ℚ) < (b : ℚ) := by exact_mod_cast hb0
  have hdm := Nat.div_add_mod (a + b - 1) b
  have hml := Nat.mod_lt (a + b - 1) hb0
  have h1 : a ≤ b * ((a + b - 1) / b) := by omega
  have h2 : b * ((a + b - 1) / b) < a + b := by omega
  rw [Nat.mul_comm b ((a + b - 1) / b)] at h1 h2
  have h1q : (a : ℚ) ≤ (((a + b - 1) / b : ℕ) : ℚ) * (b : ℚ) := by
    exact_mod_cast h1
  have h2q : (((a + b - 1) / b : ℕ) : ℚ) * (b : ℚ) < (a : ℚ) + (b : ℚ) := by
    exact_mod_cast h2
  rw [Int.ceil_eq_iff]
  constructor
  · rw [Int.cast_natCast, lt_div_iff₀ hbq, sub_mul, one_mul]
    linarith
  · rw [Int.cast_natCast, div_le_iff₀ hbq]
    exact h1q

/-- C3.  For `/api/users` with `page ≥ 1` and `per_page ≥ 1`:
`pagination.totalPages = ⌈150 / per_page⌉` (as the rounded-up natural
division) and `data` is the `per_page`-record slice of `USERS` starting at
record `(page - 1) * per_page`. -/
theorem users_page_slice (page perPage : Nat) (hp : 1 ≤ page) (hn : 1 ≤ perPage) :
    (usersHandler page perPage).pagination.totalPages = ((150 + perPage - 1) / perPage : ℕ) ∧
    (usersHandler page perPage).data = (USERS.drop ((page - 1) * perPage)).take perPage := by
  constructor
  · show ⌈(USERS.length : ℚ) / (perPage : ℚ)⌉ = _
    rw [USERS_length]
    exact ceil_ratCast_div 150 perPage hn
  · show jsSlice USERS ((page - 1) * perPage) ((page - 1) * perPage + perPage) = _
    unfold jsSlice
    rw [Nat.add_sub_cancel_left]

/-- Witness for C3 at page 1, per_page 10; in particular `totalPages = 15`. -/
theorem users_page_slice_witness :
    (1 ≤ 1 ∧ 1 ≤ 10) ∧
    ((usersHandler 1 10).pagination.totalPages = ((150 + 10 - 1) / 10 : ℕ) ∧
      (usersHandler 1 10).data = (USERS.drop ((1 - 1) * 10)).take 10) ∧
    (usersHandler 1 10).pagination.totalPages = 15 :=
  ⟨⟨by decide, by decide⟩, users_page_slice 1 10 (by decide) (by decide),
    by rw [(users_page_slice 1 10 (by decide) (by decide)).1]; decide⟩

/-! ### C4: the offset-paginated posts source -/

theorem POSTS_length : POSTS.length = 500 := by
  simp [POSTS, generatePosts]

theorem posts_items_length (o n : Nat) :
    (postsHandler o n).items.length = min n (500 - o) := by
  show (jsSlice POSTS o (o + n)).length = _
  unfold jsSlice
  rw [List.length_take, List.length_drop, POSTS_length, Nat.add_sub_cancel_left]

/-- Counterexample for C4 as stated: at offset 475, limit 25 the returned
page holds exactly 25 records — not fewer than the limit — while
`meta.has_more` is already `false`, so "fewer records than `n` iff
`has_more = false`" fails at the exact boundary `o + n = 500`. -/
theorem posts_boundary_counterexample :
    ¬ (((postsHandler 475 25).items.length < 25) ↔
        ((postsHandler 475 25).meta.has_more = false)) := by
  rw [posts_items_length]
  have hh : (postsHandler 475 25).meta.has_more = false := by
    show decide (475 + 25 < POSTS.length) = false
    rw [POSTS_length]
    decide
  rw [hh]
  decide

/-- C4 (amended).  For `/api/posts` with offset `o` and limit `n ≥ 1`: the
items are the records in positions `[o, o + n)`, `meta.has_more` is `false`
iff `o + n ≥ 500`, and the page holds fewer than `n` records iff
`o + n > 500` — so a short page implies `has_more = false`, but at the exact
boundary `o + n = 500` a full page arrives with `has_more` already false. -/
theorem posts_offset_amended (o n : Nat) (hn : 1 ≤ n) :
    (postsHandler o n).items = (POSTS.drop o).take n ∧
    ((postsHandler o n).meta.has_more = false ↔ 500 ≤ o + n) ∧
    ((postsHandler o n).items.length < n ↔ 500 < o + n) := by
  refine ⟨?_, ?_, ?_⟩
  · show jsSlice POSTS o (o + n) = _
    unfold jsSlice
    rw [Nat.add_sub_cancel_left]
  · show (decide (o + n < POSTS.length) = false) ↔ _
    rw [POSTS_length]
    simp
  · rw [posts_items_length]
    omega

/-- Witness for the amended C4 at offset 490, limit 25 (a genuinely short
final page). -/
theorem posts_offset_amended_witness :
    (1 ≤ 25) ∧
    ((postsHandler 490 25).items = (POSTS.drop 490).take 25 ∧
      ((postsHandler 490 25).meta.has_more = false ↔ 500 ≤ 490 + 25) ∧
      ((postsHandler 490 25).items.length < 25 ↔ 500 < 490 + 25)) :=
  ⟨by decide, posts_offset_amended 490 25 (by decide)⟩

/-! ### C5: interval validation rejects start_interval > end_interval -/

/-- C5.  Any job configuration whose `start_interval` exceeds its
`end_interval` is rejected by validation: no `Job` is created. -/
theorem config_interval_rejected (cfg : JobConfig)
    (h : cfg.start_interval > cfg.end_interval) : jobCreated cfg = false := by
  have hlt : cfg.end_interval < cfg.start_interval := h
  unfold jobCreated createJob
  by_cases h1 : cfg.start_interval < 1
  · simp [h1]
  · simp [h1, hlt]

/-- Witness for C5: intervals 10 and 5. -/
theorem config_interval_rejected_witness :
    (JobConfig.mk "curl http://e.com" "t" 10 5 true none none none).start_interval >
      (JobConfig.mk "curl http://e.com" "t" 10 5 true none none none).end_interval ∧
    jobCreated (JobConfig.mk "curl http://e.com" "t" 10 5 true none none none) = false :=
  ⟨by decide, config_interval_rejected _ (by decide)⟩

/-! ### C8: cursor beats page in detection -/

/-- C8.  A sample whose response has a `next_cursor` field while the request
carries a `page` parameter is classified as cursor pagination, never page:
the cursor check has the highest precedence in the detector's fixed
first-match-wins order. -/
theorem detect_cursor_over_page (s : Sample)
    (h1 : "next_cursor" ∈ s.responseFields) (h2 : "page" ∈ s.requestParams) :
    detect s = PaginationType.cursor ∧ detect s ≠ PaginationType.page := by
  have hc : s.responseFields.any (fun f => cursorFieldNames.contains (lowerStr f)) = true :=
    List.any_eq_true.mpr ⟨"next_cursor", h1, by decide⟩
  have hd : detect s = PaginationType.cursor := by
    unfold detect
    rw [hc]
    rfl
  exact ⟨hd, by rw [hd]; decide⟩

/-- Witness for C8 on a concrete sample carrying both signals. -/
theorem detect_cursor_over_page_witness :
    ("next_cursor" ∈ (Sample.mk ["page", "limit"] ["data", "next_cursor", "has_more"] false).responseFields ∧
      "page" ∈ (Sample.mk ["page", "limit"] ["data", "next_cursor", "has_more"] false).requestParams) ∧
    (detect (Sample.mk ["page", "limit"] ["data", "next_cursor", "has_more"] false) = PaginationType.cursor ∧
      detect (Sample.mk ["page", "limit"] ["data", "next_cursor", "has_more"] false) ≠ PaginationType.page) :=
  ⟨⟨by decide, by decide⟩, detect_cursor_over_page _ (by decide) (by decide)⟩

/-! ### C7: buildHeaders on repeated header names -/

/-- Counterexample for C7 as stated: two enabled rows named `X-Tag` with
values `1` and `2` yield a single entry — the first pair is gone — because
the JS header object overwrites on repeated keys instead of appending. -/
theorem headers_duplicate_counterexample :
    (buildHeaders "none" ⟨"", "", "", "", "", "header"⟩ "none"
      [⟨"X-Tag", "1", true⟩, ⟨"X-Tag", "2", true⟩]).length = 1 ∧
    ("X-Tag", "1") ∉ buildHeaders "none" ⟨"", "", "", "", "", "header"⟩ "none"
      [⟨"X-Tag", "1", true⟩, ⟨"X-Tag", "2", true⟩] := by
  decide

/-- C7 (amended).  The built headers form an insertion-ordered mapping whose
keys compare case-sensitively and in which a repeated name overwrites in
place, the last value winning: two enabled rows with the same non-empty name
leave a single entry holding the second value, while rows whose names differ
(even only by case) keep both entries in order. -/
theorem headers_last_write_wins (ac : AuthConfig) (k v1 v2 k1 k2 w1 w2 : String)
    (hk : k ≠ "") (hk1 : k1 ≠ "") (hk2 : k2 ≠ "") (hne : k1 ≠ k2) :
    buildHeaders "none" ac "none" [⟨k, v1, true⟩, ⟨k, v2, true⟩] = [(k, v2)] ∧
    buildHeaders "none" ac "none" [⟨k1, w1, true⟩, ⟨k2, w2, true⟩] = [(k1, w1), (k2, w2)] := by
  constructor
  · simp [buildHeaders, objSet, hk]
  · simp [buildHeaders, objSet, hk1, hk2, hne]

/-- Witness for the amended C7, including the case-differing pair `A`/`a`. -/
theorem headers_last_write_wins_witness :
    ("X-Tag" ≠ "" ∧ "A" ≠ "" ∧ "a" ≠ "" ∧ "A" ≠ "a") ∧
    (buildHeaders "none" ⟨"", "", "", "", "", "header"⟩ "none"
        [⟨"X-Tag", "1", true⟩, ⟨"X-Tag", "2", true⟩] = [("X-Tag", "2")] ∧
      buildHeaders "none" ⟨"", "", "", "", "", "header"⟩ "none"
        [⟨"A", "1", true⟩, ⟨"a", "2", true⟩] = [("A", "1"), ("a", "2")]) :=
  ⟨⟨by decide, by decide, by decide, by decide⟩,
    headers_last_write_wins _ "X-Tag" "1" "2" "A" "a" "1" "2"
      (by decide) (by decide) (by decide) (by decide)⟩

/-! ### C10: the live log viewer's bounded log list -/

theorem jsSliceLast_length (n : Nat) (l : List α) :
    (jsSliceLast n l).length = min n l.length := by
  simp only [jsSliceLast, List.length_drop]
  omega

theorem jsSliceLast_absorb (n : Nat) (xs ys : List α) :
    jsSliceLast n (jsSliceLast n xs ++ ys) = jsSliceLast n (xs ++ ys) := by
  unfold jsSliceLast
  rw [← List.drop_append_of_le_length (by omega : xs.length - n ≤ xs.length)]
  rw [List.drop_drop]
  congr 1
  simp only [List.length_drop, List.length_append]
  omega

theorem logviewer_foldl (msgs : List (Option ParsedLog)) (init : List ParsedLog)
    (h : init.length ≤ 500) :
    msgs.foldl onStreamMessage init = jsSliceLast 500 (init ++ validStreamLogs msgs) := by
  induction msgs generalizing init with
  | nil =>
    simp only [List.foldl_nil, validStreamLogs, List.filterMap_nil, List.append_nil]
    unfold jsSliceLast
    rw [Nat.sub_eq_zero_of_le h, List.drop_zero]
  | cons m rest ih =>
    cases m with
    | none =>
      rw [List.foldl_cons]
      show rest.foldl onStreamMessage init = _
      rw [ih init h]
      simp [validStreamLogs, List.filterMap_cons]
    | some log =>
      by_cases hj : jobIdTruthy log = true
      · rw [List.foldl_cons]
        show rest.foldl onStreamMessage (onStreamMessage init (some log)) = _
        have hstep : onStreamMessage init (some log) = jsSliceLast 500 (init ++ [log]) := by
          simp [onStreamMessage, hj]
        rw [hstep, ih _ (by rw [jsSliceLast_length]; omega), jsSliceLast_absorb]
        simp [validStreamLogs, List.filterMap_cons, hj]
      · rw [Bool.not_eq_true] at hj
        rw [List.foldl_cons]
        have hstep : onStreamMessage init (some log) = init := by
          simp [onStreamMessage, hj]
        rw [hstep, ih init h]
        simp [validStreamLogs, List.filterMap_cons, hj]

/-- C10.  Starting from an initial load of at most 500 entries, after any
sequence of stream messages the log list is exactly the last 500 of the
initial entries followed by the kept messages in arrival order — in
particular it never exceeds 500 entries — and messages that fail to parse or
lack a truthy `job_id` (such as keepalives) leave the list unchanged (they
contribute nothing to `validStreamLogs`). -/
theorem logviewer_bounded (init : List ParsedLog) (msgs : List (Option ParsedLog))
    (h : init.length ≤ 500) :
    msgs.foldl onStreamMessage init = jsSliceLast 500 (init ++ validStreamLogs msgs) ∧
    (msgs.foldl onStreamMessage init).length ≤ 500 ∧
    (∀ prev m, (m = none ∨ ∃ log, m = some log ∧ jobIdTruthy log = false) →
      onStreamMessage prev m = prev) := by
  refine ⟨logviewer_foldl msgs init h, ?_, ?_⟩
  · rw [logviewer_foldl msgs init h, jsSliceLast_length]
    omega
  · rintro prev m (rfl | ⟨log, rfl, hlog⟩)
    · rfl
    · simp [onStreamMessage, hlog]

/-- Witness for C10 on a concrete message sequence containing a valid entry,
a keepalive and a `job_id`-less entry. -/
theorem logviewer_bounded_witness :
    (([] : List ParsedLog).length ≤ 500) ∧
    ([some ⟨some "job1", "info", "fetch ok"⟩, none, some ⟨none, "info", "noise"⟩].foldl
        onStreamMessage [] =
      jsSliceLast 500 ([] ++ validStreamLogs
        [some ⟨some "job1", "info", "fetch ok"⟩, none, some ⟨none, "info", "noise"⟩]) ∧
      ([some ⟨some "job1", "info", "fetch ok"⟩, none, some ⟨none, "info", "noise"⟩].foldl
        onStreamMessage []).length ≤ 500 ∧
      (∀ prev m, (m = none ∨ ∃ log, m = some log ∧ jobIdTruthy log = false) →
        onStreamMessage prev m = prev)) :=
  ⟨by decide, logviewer_bounded [] _ (by decide)⟩

/-! ### String and suffix helpers for the cURL scanners -/

theorem toList_asString (l : List Char) : l.asString.toList = l := rfl

theorem asString_toList (s : String) : s.toList.asString = s := rfl

theorem asString_ne_empty (l : List Char) (h : l ≠ []) : l.asString ≠ "" := by
  intro heq
  exact h (congrArg String.toList heq)

theorem isEmpty_false_of_ne_nil {l : List α} (h : l ≠ []) : l.isEmpty = false := by
  cases l with
  | nil => exact absurd rfl h
  | cons a l => rfl

theorem suffix_append_split {s a b : List α} (hs : s <:+ a ++ b) :
    s <:+ b ∨ ∃ a', a' <:+ a ∧ a' ≠ [] ∧ s = a' ++ b := by
  induction a with
  | nil => left; simpa using hs
  | cons c a ih =>
    rw [List.cons_append] at hs
    rcases List.suffix_cons_iff.mp hs with rfl | hs'
    · right
      exact ⟨c :: a, List.suffix_refl _, by simp, by simp⟩
    · rcases ih hs' with h | ⟨a', ha', hne, rfl⟩
      · left; exact h
      · right; exact ⟨a', ha'.trans (List.suffix_cons c a), hne, rfl⟩

theorem suffix_append_both {s l : List α} (t : List α) (h : s <:+ l) :
    s ++ t <:+ l ++ t := by
  obtain ⟨p, rfl⟩ := h
  exact ⟨p, by rw [List.append_assoc]⟩

/-! ### The method scanner -/

theorem matchMethodAt_cons₂ (c1 c2 : Char) (rest : List Char) :
    matchMethodAt (c1 :: c2 :: rest) =
      if c1 = '-' ∧ c2 = 'X' then
        if (rest.takeWhile isJsWS).isEmpty then none
        else if ((rest.dropWhile isJsWS).takeWhile isWordCh).isEmpty then none
        else some ((rest.dropWhile isJsWS).takeWhile isWordCh)
      else none := rfl

theorem matchMethodAt_step (rest : List Char) :
    matchMethodAt ('-' :: 'X' :: rest) =
      if (rest.takeWhile isJsWS).isEmpty then none
      else if ((rest.dropWhile isJsWS).takeWhile isWordCh).isEmpty then none
      else some ((rest.dropWhile isJsWS).takeWhile isWordCh) := by
  rw [matchMethodAt_cons₂, if_pos ⟨rfl, rfl⟩]

theorem matchMethodAt_pat {c1 c2 : Char} (rest : List Char) (h : ¬(c1 = '-' ∧ c2 = 'X')) :
    matchMethodAt (c1 :: c2 :: rest) = none := by
  rw [matchMethodAt_cons₂, if_neg h]

theorem matchMethodAt_head {c : Char} (l : List Char) (h : c ≠ '-') :
    matchMethodAt (c :: l) = none := by
  cases l with
  | nil => rfl
  | cons c2 rest => exact matchMethodAt_pat rest (fun hh => h hh.1)

theorem findMethodMatch_cons (c : Char) (rest : List Char) :
    findMethodMatch (c :: rest) =
      match matchMethodAt (c :: rest) with
      | some w => some w
      | none => findMethodMatch rest := rfl

theorem findMethodMatch_eq_none_iff (l : List Char) :
    findMethodMatch l = none ↔ ∀ s, s <:+ l → matchMethodAt s = none := by
  induction l with
  | nil =>
    constructor
    · intro _ s hs
      rw [List.suffix_nil.mp hs]
      rfl
    · intro _
      rfl
  | cons c rest ih =>
    constructor
    · intro h s hs
      have hm : matchMethodAt (c :: rest) = none := by
        cases hmm : matchMethodAt (c :: rest) with
        | some w => rw [findMethodMatch_cons, hmm] at h; exact absurd h (by simp)
        | none => rfl
      rcases List.suffix_cons_iff.mp hs with rfl | hs'
      · exact hm
      · rw [findMethodMatch_cons, hm] at h
        exact (ih.mp h) s hs'
    · intro h
      rw [findMethodMatch_cons, h (c :: rest) (List.suffix_refl _)]
      exact ih.mpr (fun s hs => h s (hs.trans (List.suffix_cons c rest)))

theorem findMethodMatch_append_none (a b : List Char)
    (ha : ∀ s, s <:+ a → s ≠ [] → matchMethodAt (s ++ b) = none) :
    findMethodMatch (a ++ b) = findMethodMatch b := by
  induction a with
  | nil => simp
  | cons c a ih =>
    have h0 : matchMethodAt ((c :: a) ++ b) = none :=
      ha (c :: a) (List.suffix_refl _) (by simp)
    rw [List.cons_append] at h0 ⊢
    rw [findMethodMatch_cons, h0]
    exact ih (fun s hs hne => ha s (hs.trans (List.suffix_cons c a)) hne)

theorem matchMethodAt_quote_ctx (s b : List Char) :
    matchMethodAt (s ++ '"' :: b) = matchMethodAt (s ++ ['"']) := by
  cases s with
  | nil =>
    rw [List.nil_append, List.nil_append, matchMethodAt_head b (by decide)]
    rfl
  | cons c1 s1 =>
    cases s1 with
    | nil =>
      have hp : ¬(c1 = '-' ∧ ('"' : Char) = 'X') := by
        rintro ⟨-, h2⟩
        exact absurd h2 (by decide)
      simp only [List.cons_append, List.nil_append]
      rw [matchMethodAt_pat b hp, matchMethodAt_pat [] hp]
    | cons c2 s2 =>
      by_cases h : c1 = '-' ∧ c2 = 'X'
      · obtain ⟨rfl, rfl⟩ := h
        simp only [List.cons_append]
        rw [matchMethodAt_step, matchMethodAt_step]
        rw [takeWhile_append_stop s2 b (by decide),
          takeWhile_append_stop s2 ([] : List Char) (by decide),
          dropWhile_append_stop s2 b (by decide),
          dropWhile_append_stop s2 ([] : List Char) (by decide),
          takeWhile_append_stop (s2.dropWhile isJsWS) b (by decide),
          takeWhile_append_stop (s2.dropWhile isJsWS) ([] : List Char) (by decide)]
      · simp only [List.cons_append]
        rw [matchMethodAt_pat _ h, matchMethodAt_pat _ h]

theorem msafe_no_dash {a : List Char} (b : List Char) (ha : ∀ c ∈ a, c ≠ '-') :
    ∀ s, s <:+ a → s ≠ [] → matchMethodAt (s ++ b) = none := by
  intro s hs hne
  cases s with
  | nil => exact absurd rfl hne
  | cons c s' =>
    rw [List.cons_append]
    exact matchMethodAt_head _ (ha c (hs.sublist.subset (by simp)))

theorem msafe_url {url : List Char} (blocks : List Char)
    (hu : ∀ c ∈ url, isJsWS c = false) :
    ∀ s, s <:+ url → s ≠ [] → matchMethodAt (s ++ '"' :: blocks) = none := by
  intro s hs hne
  have hsub : ∀ x ∈ s, x ∈ url := hs.sublist.subset
  cases s with
  | nil => exact absurd rfl hne
  | cons c s' =>
    rw [List.cons_append]
    by_cases hc : c = '-'
    · subst hc
      cases s' with
      | nil =>
        refine matchMethodAt_pat _ ?_
        rintro ⟨-, h2⟩
        exact absurd h2 (by decide)
      | cons c2 s'' =>
        by_cases hc2 : c2 = 'X'
        · subst hc2
          rw [List.cons_append, matchMethodAt_step]
          have hws : (s'' ++ '"' :: blocks).takeWhile isJsWS = [] := by
            cases s'' with
            | nil => rw [List.nil_append, List.takeWhile_cons_of_neg (by decide)]
            | cons d s3 =>
              have hd : isJsWS d = false := hu d (hsub d (by simp))
              rw [List.cons_append, List.takeWhile_cons_of_neg (by simp [hd])]
          rw [hws]
          rfl
        · rw [List.cons_append]
          exact matchMethodAt_pat _ (fun hh => hc2 hh.2)
    · exact matchMethodAt_head _ hc

theorem msafe_quoted {content : List Char} (b : List Char)
    (hsafe : findMethodMatch (content ++ ['"']) = none) :
    ∀ s, s <:+ content ++ ['"'] → s ≠ [] → matchMethodAt (s ++ b) = none := by
  intro s hs hne
  rcases suffix_append_split hs with h | ⟨s1, hs1, hne1, rfl⟩
  · rcases List.suffix_cons_iff.mp h with rfl | h2
    · rw [List.cons_append, List.nil_append]
      exact matchMethodAt_head _ (by decide)
    · rw [List.suffix_nil.mp h2] at hne
      exact absurd rfl hne
  · rw [List.append_assoc, List.singleton_append, matchMethodAt_quote_ctx]
    exact (findMethodMatch_eq_none_iff _).mp hsafe (s1 ++ ['"']) (suffix_append_both ['"'] hs1)

theorem hdrBlock_eq (k v : List Char) :
    hdrBlock k v =
      [' ', '\\', '\n', ' ', ' ', '-', 'H', ' ', '"'] ++ ((k ++ ':' :: ' ' :: v) ++ ['"']) := by
  simp [hdrBlock]

theorem msafe_pre9 (b : List Char) :
    ∀ s, s <:+ ([' ', '\\', '\n', ' ', ' ', '-', 'H', ' ', '"'] : List Char) → s ≠ [] →
      matchMethodAt (s ++ b) = none := by
  intro s hs hne
  rw [← List.mem_tails] at hs
  fin_cases hs <;>
    simp only [List.cons_append, List.nil_append] <;>
    first
      | exact absurd rfl hne
      | exact matchMethodAt_head _ (by decide)
      | exact matchMethodAt_pat _ (by decide)

theorem msafe_hdrBlock {k v : List Char} (b : List Char)
    (hsafe : findMethodMatch ((k ++ ':' :: ' ' :: v) ++ ['"']) = none) :
    ∀ s, s <:+ hdrBlock k v → s ≠ [] → matchMethodAt (s ++ b) = none := by
  rw [hdrBlock_eq]
  intro s hs hne
  rcases suffix_append_split hs with h | ⟨s1, hs1, hne1, rfl⟩
  · exact msafe_quoted b hsafe s h hne
  · rw [List.append_assoc]
    exact msafe_pre9 _ s1 hs1 hne1

theorem findMethodMatch_join {hdrsL : List (List Char × List Char)}
    (hh : ∀ kv ∈ hdrsL, findMethodMatch ((kv.1 ++ ':' :: ' ' :: kv.2) ++ ['"']) = none) :
    findMethodMatch (hdrsJoin hdrsL) = none := by
  induction hdrsL with
  | nil => rfl
  | cons kv rest ih =>
    show findMethodMatch (hdrBlock kv.1 kv.2 ++ hdrsJoin rest) = none
    rw [findMethodMatch_append_none _ _ (msafe_hdrBlock _ (hh kv (by simp)))]
    exact ih (fun kv' h' => hh kv' (by simp [h']))

/-! ### The URL scanner -/

theorem urlAltQuoted_cons (q c : Char) (t2 : List Char) :
    urlAltQuoted q (c :: t2) =
      if c = q then
        match t2.dropWhile (fun x => x != q) with
        | c2 :: _ =>
          if (t2.takeWhile (fun x => x != q)).isEmpty then none
          else if c2 = q then some (t2.takeWhile (fun x => x != q)) else none
        | [] => none
      else none := rfl

theorem matchUrlAt_cons₄ (c1 c2 c3 c4 : Char) (rest : List Char) :
    matchUrlAt (c1 :: c2 :: c3 :: c4 :: rest) =
      if c1 = 'c' ∧ c2 = 'u' ∧ c3 = 'r' ∧ c4 = 'l' then
        if (rest.takeWhile isJsWS).isEmpty then none
        else
          (urlAltQuoted '"' (rest.dropWhile isJsWS) <|>
            urlAltQuoted sqChar (rest.dropWhile isJsWS)) <|>
            urlAltBare (rest.dropWhile isJsWS)
      else none := rfl

theorem findUrlMatch_cons (c : Char) (rest : List Char) :
    findUrlMatch (c :: rest) =
      match matchUrlAt (c :: rest) with
      | some u => some u
      | none => findUrlMatch rest := rfl

theorem matchUrlAt_gen (url rest : List Char) (hne : url ≠ [])
    (hq : ∀ c ∈ url, c ≠ '"') :
    matchUrlAt ('c' :: 'u' :: 'r' :: 'l' :: ' ' :: '"' :: (url ++ '"' :: rest)) = some url := by
  rw [matchUrlAt_cons₄, if_pos ⟨rfl, rfl, rfl, rfl⟩]
  have hws : ((' ' :: '"' :: (url ++ '"' :: rest)).takeWhile isJsWS) = [' '] := by
    rw [List.takeWhile_cons_of_pos (by decide), List.takeWhile_cons_of_neg (by decide)]
  have hdw : ((' ' :: '"' :: (url ++ '"' :: rest)).dropWhile isJsWS)
      = '"' :: (url ++ '"' :: rest) := by
    rw [List.dropWhile_cons_of_pos (by decide), List.dropWhile_cons_of_neg (by decide)]
  rw [hws, hdw, if_neg (by decide : ¬(([' '] : List Char).isEmpty = true))]
  have hcap : (url ++ '"' :: rest).takeWhile (fun x => x != '"') = url :=
    takeWhile_run_stop url rest (fun x hx => bne_iff_ne.mpr (hq x hx)) (by decide)
  have hdrop : (url ++ '"' :: rest).dropWhile (fun x => x != '"') = '"' :: rest :=
    dropWhile_run_stop url rest (fun x hx => bne_iff_ne.mpr (hq x hx)) (by decide)
  have halt : urlAltQuoted '"' ('"' :: (url ++ '"' :: rest)) = some url := by
    rw [urlAltQuoted_cons, if_pos rfl, hdrop, hcap]
    simp [isEmpty_false_of_ne_nil hne]
  rw [halt]
  rfl

theorem findUrlMatch_gen (url rest : List Char) (hne : url ≠ [])
    (hq : ∀ c ∈ url, c ≠ '"') :
    findUrlMatch ('c' :: 'u' :: 'r' :: 'l' :: ' ' :: '"' :: (url ++ '"' :: rest)) = some url := by
  rw [findUrlMatch_cons, matchUrlAt_gen url rest hne hq]

/-! ### The header scanner -/

theorem matchHeaderAt_cons₂ (c1 c2 : Char) (rest : List Char) :
    matchHeaderAt (c1 :: c2 :: rest) =
      if c1 = '-' ∧ c2 = 'H' then
        if (rest.takeWhile isJsWS).isEmpty then none
        else
          match rest.dropWhile isJsWS with
          | q :: t2 => if q = '"' then headerQuoted t2 else none
          | [] => none
      else none := rfl

theorem matchHeaderAt_step (rest : List Char) :
    matchHeaderAt ('-' :: 'H' :: rest) =
      if (rest.takeWhile isJsWS).isEmpty then none
      else
        match rest.dropWhile isJsWS with
        | q :: t2 => if q = '"' then headerQuoted t2 else none
        | [] => none := by
  rw [matchHeaderAt_cons₂, if_pos ⟨rfl, rfl⟩]

theorem matchHeaderAt_pat {c1 c2 : Char} (rest : List Char) (h : ¬(c1 = '-' ∧ c2 = 'H')) :
    matchHeaderAt (c1 :: c2 :: rest) = none := by
  rw [matchHeaderAt_cons₂, if_neg h]

theorem matchHeaderAt_head {c : Char} (l : List Char) (h : c ≠ '-') :
    matchHeaderAt (c :: l) = none := by
  cases l with
  | nil => rfl
  | cons c2 rest => exact matchHeaderAt_pat rest (fun hh => h hh.1)

theorem matchHeaderAt_no_quote {r : List Char} (h : '"' ∉ r) :
    matchHeaderAt ('-' :: 'H' :: r) = none := by
  rw [matchHeaderAt_step]
  by_cases hws : (r.takeWhile isJsWS).isEmpty = true
  · rw [if_pos hws]
  · rw [if_neg hws]
    cases hd : r.dropWhile isJsWS with
    | nil => simp only [hd]
    | cons q t2 =>
      have hqr : q ∈ r := by
        have h1 : q ∈ r.dropWhile isJsWS := by
          rw [hd]
          exact List.mem_cons_self q t2
        exact (List.dropWhile_suffix isJsWS).subset h1
      have hq : q ≠ '"' := fun heq => h (heq ▸ hqr)
      simp only [hd]
      rw [if_neg hq]

theorem matchHeaderAt_none_no_quote {l : List Char} (h : '"' ∉ l) :
    matchHeaderAt l = none := by
  match l with
  | [] => rfl
  | [c] => rfl
  | c1 :: c2 :: rest =>
    by_cases h12 : c1 = '-' ∧ c2 = 'H'
    · obtain ⟨rfl, rfl⟩ := h12
      exact matchHeaderAt_no_quote (fun hm => h (by simp [hm]))
    · exact matchHeaderAt_pat rest h12

theorem matchHeaderAt_rem_length : ∀ {l cap rem : List Char},
    matchHeaderAt l = some (cap, rem) → rem.length < l.length := by
  intro l cap rem h
  match l with
  | [] => exact Option.noConfusion h
  | [c] => exact Option.noConfusion h
  | c1 :: c2 :: rest =>
    rw [matchHeaderAt_cons₂] at h
    by_cases h12 : c1 = '-' ∧ c2 = 'H'
    · rw [if_pos h12] at h
      by_cases hws : (rest.takeWhile isJsWS).isEmpty = true
      · rw [if_pos hws] at h
        exact Option.noConfusion h
      · rw [if_neg hws] at h
        cases hd : rest.dropWhile isJsWS with
        | nil =>
          rw [hd] at h
          exact Option.noConfusion h
        | cons q t2 =>
          rw [hd] at h
          have hsfx1 : q :: t2 <:+ rest := hd ▸ List.dropWhile_suffix isJsWS
          have hlen1 : t2.length + 1 ≤ rest.length := by
            have := hsfx1.length_le
            simpa using this
          by_cases hq : q = '"'
          · simp only [if_pos hq] at h
            unfold headerQuoted at h
            cases hd2 : t2.dropWhile (fun x => x != '"') with
            | nil =>
              rw [hd2] at h
              exact Option.noConfusion h
            | cons q2 rem2 =>
              simp only [hd2] at h
              have hsfx2 : q2 :: rem2 <:+ t2 := hd2 ▸ List.dropWhile_suffix _
              have hlen2 : rem2.length + 1 ≤ t2.length := by
                have := hsfx2.length_le
                simpa using this
              by_cases hcap : (t2.takeWhile (fun x => x != '"')).isEmpty = true
              · rw [if_pos hcap] at h
                exact Option.noConfusion h
              · rw [if_neg hcap] at h
                by_cases hq2 : q2 = '"'
                · rw [if_pos hq2] at h
                  injection h with h1
                  injection h1 with h2 h3
                  subst h3
                  simp only [List.length_cons]
                  omega
                · rw [if_neg hq2] at h
                  exact Option.noConfusion h
          · simp only [if_neg hq] at h
            exact Option.noConfusion h
    · rw [if_neg h12] at h
      exact Option.noConfusion h

theorem findHeadersAux_succ_cons (f : Nat) (c : Char) (rest : List Char) :
    findHeadersAux (f + 1) (c :: rest) =
      match matchHeaderAt (c :: rest) with
      | some (cap, rem) => cap :: findHeadersAux f rem
      | none => findHeadersAux f rest := rfl

theorem findHeadersAux_stable :
    ∀ (f : Nat) (l : List Char), l.length ≤ f → findHeadersAux f l = findHeaders l := by
  intro f
  induction f using Nat.strong_induction_on with
  | _ f ih =>
    intro l hl
    match f, l with
    | 0, l =>
      have : l = [] := List.eq_nil_of_length_eq_zero (Nat.le_zero.mp hl)
      subst this
      rfl
    | f + 1, [] => rfl
    | f + 1, c :: rest =>
      show findHeadersAux (f + 1) (c :: rest) = findHeadersAux (rest.length + 1) (c :: rest)
      rw [findHeadersAux_succ_cons, findHeadersAux_succ_cons]
      simp only [List.length_cons] at hl
      cases hm : matchHeaderAt (c :: rest) with
      | some capRem =>
        obtain ⟨cap, rem⟩ := capRem
        have hrem : rem.length < rest.length + 1 := by
          have := matchHeaderAt_rem_length hm
          simpa using this
        show cap :: findHeadersAux f rem = cap :: findHeadersAux rest.length rem
        rw [ih f (by omega) rem (by omega), ih rest.length (by omega) rem (by omega)]
      | none =>
        show findHeadersAux f rest = findHeadersAux rest.length rest
        rw [ih f (by omega) rest (by omega),
          ih rest.length (by omega) rest (le_refl _)]

theorem findHeaders_cons (c : Char) (rest : List Char) :
    findHeaders (c :: rest) =
      match matchHeaderAt (c :: rest) with
      | some (cap, rem) => cap :: findHeaders rem
      | none => findHeaders rest := by
  show findHeadersAux (rest.length + 1) (c :: rest) = _
  rw [findHeadersAux_succ_cons]
  cases hm : matchHeaderAt (c :: rest) with
  | some capRem =>
    obtain ⟨cap, rem⟩ := capRem
    have hrem : rem.length < rest.length + 1 := by
      have := matchHeaderAt_rem_length hm
      simpa using this
    show cap :: findHeadersAux rest.length rem = cap :: findHeaders rem
    rw [findHeadersAux_stable rest.length rem (by omega)]
  | none =>
    show findHeadersAux rest.length rest = findHeaders rest
    exact findHeadersAux_stable rest.length rest (le_refl _)

theorem findHeaders_append_none (a b : List Char)
    (ha : ∀ s, s <:+ a → s ≠ [] → matchHeaderAt (s ++ b) = none) :
    findHeaders (a ++ b) = findHeaders b := by
  induction a with
  | nil => simp
  | cons c a ih =>
    have h0 : matchHeaderAt ((c :: a) ++ b) = none :=
      ha (c :: a) (List.suffix_refl _) (by simp)
    rw [List.cons_append] at h0 ⊢
    rw [findHeaders_cons, h0]
    exact ih (fun s hs hne => ha s (hs.trans (List.suffix_cons c a)) hne)

theorem findHeaders_no_quote {a : List Char} (ha : '"' ∉ a) : findHeaders a = [] := by
  induction a with
  | nil => rfl
  | cons c rest ih =>
    rw [findHeaders_cons, matchHeaderAt_none_no_quote ha]
    exact ih (fun hm => ha (by simp [hm]))

theorem hsafe_no_dash {a : List Char} (b : List Char) (ha : ∀ c ∈ a, c ≠ '-') :
    ∀ s, s <:+ a → s ≠ [] → matchHeaderAt (s ++ b) = none := by
  intro s hs hne
  cases s with
  | nil => exact absurd rfl hne
  | cons c s' =>
    rw [List.cons_append]
    exact matchHeaderAt_head _ (ha c (hs.sublist.subset (by simp)))

theorem hsafe_url {url : List Char} (blocks : List Char)
    (hu : ∀ c ∈ url, isJsWS c = false) :
    ∀ s, s <:+ url → s ≠ [] → matchHeaderAt (s ++ '"' :: blocks) = none := by
  intro s hs hne
  have hsub : ∀ x ∈ s, x ∈ url := hs.sublist.subset
  cases s with
  | nil => exact absurd rfl hne
  | cons c s' =>
    rw [List.cons_append]
    by_cases hc : c = '-'
    · subst hc
      cases s' with
      | nil =>
        refine matchHeaderAt_pat _ ?_
        rintro ⟨-, h2⟩
        exact absurd h2 (by decide)
      | cons c2 s'' =>
        by_cases hc2 : c2 = 'H'
        · subst hc2
          rw [List.cons_append, matchHeaderAt_step]
          have hws : (s'' ++ '"' :: blocks).takeWhile isJsWS = [] := by
            cases s'' with
            | nil => rw [List.nil_append, List.takeWhile_cons_of_neg (by decide)]
            | cons d s3 =>
              have hd : isJsWS d = false := hu d (hsub d (by simp))
              rw [List.cons_append, List.takeWhile_cons_of_neg (by simp [hd])]
          rw [hws]
          rfl
        · rw [List.cons_append]
          exact matchHeaderAt_pat _ (fun hh => hc2 hh.2)
    · exact matchHeaderAt_head _ hc

theorem hsafe_methodBlock {m : List Char} (b : List Char)
    (hmw : ∀ c ∈ m, isWordCh c = true) :
    ∀ s, s <:+ methodBlock m → s ≠ [] → matchHeaderAt (s ++ b) = none := by
  intro s hs hne
  rw [methodBlock] at hs
  rcases suffix_append_split hs with h | ⟨s1, hs1, hne1, rfl⟩
  · cases s with
    | nil => exact absurd rfl hne
    | cons c s' =>
      have hcm : c ∈ m := h.sublist.subset (by simp)
      have hcw := hmw c hcm
      rw [List.cons_append]
      refine matchHeaderAt_head _ (fun hdash => ?_)
      subst hdash
      exact absurd hcw (by decide)
  · rw [← List.mem_tails] at hs1
    fin_cases hs1 <;>
      simp only [List.cons_append, List.nil_append, List.append_assoc] <;>
      first
        | exact absurd rfl hne1
        | exact matchHeaderAt_head _ (by decide)
        | exact matchHeaderAt_pat _ (by decide)

theorem headerQuoted_gen (content rem : List Char) (hne : content ≠ [])
    (hq : ∀ c ∈ content, c ≠ '"') :
    headerQuoted (content ++ '"' :: rem) = some (content, rem) := by
  have hcap : (content ++ '"' :: rem).takeWhile (fun x => x != '"') = content :=
    takeWhile_run_stop content rem (fun x hx => bne_iff_ne.mpr (hq x hx)) (by decide)
  have hdrop : (content ++ '"' :: rem).dropWhile (fun x => x != '"') = '"' :: rem :=
    dropWhile_run_stop content rem (fun x hx => bne_iff_ne.mpr (hq x hx)) (by decide)
  unfold headerQuoted
  rw [hdrop, hcap]
  simp [isEmpty_false_of_ne_nil hne]

theorem matchHeaderAt_block (k v b : List Char) (hk : k ≠ [])
    (hkq : ∀ c ∈ k, c ≠ '"') (hvq : ∀ c ∈ v, c ≠ '"') :
    matchHeaderAt ('-' :: 'H' :: ' ' :: '"' :: ((k ++ ':' :: ' ' :: v) ++ '"' :: b)) =
      some (k ++ ':' :: ' ' :: v, b) := by
  rw [matchHeaderAt_step]
  have hws : ((' ' :: '"' :: ((k ++ ':' :: ' ' :: v) ++ '"' :: b)).takeWhile isJsWS) = [' '] := by
    rw [List.takeWhile_cons_of_pos (by decide), List.takeWhile_cons_of_neg (by decide)]
  have hdw : ((' ' :: '"' :: ((k ++ ':' :: ' ' :: v) ++ '"' :: b)).dropWhile isJsWS)
      = '"' :: ((k ++ ':' :: ' ' :: v) ++ '"' :: b) := by
    rw [List.dropWhile_cons_of_pos (by decide), List.dropWhile_cons_of_neg (by decide)]
  rw [hws, hdw]
  have hcq : ∀ c ∈ k ++ ':' :: ' ' :: v, c ≠ '"' := by
    intro c hc
    rcases List.mem_append.mp hc with h | h
    · exact hkq c h
    · simp only [List.mem_cons] at h
      rcases h with rfl | rfl | h
      · decide
      · decide
      · exact hvq c h
  have hcne : (k ++ ':' :: ' ' :: v) ≠ [] := by
    cases k with
    | nil => simp
    | cons a k' => simp
  rw [if_neg (by decide : ¬(([' '] : List Char).isEmpty = true))]
  show (if ('"' : Char) = '"' then headerQuoted ((k ++ ':' :: ' ' :: v) ++ '"' :: b)
    else none) = _
  rw [if_pos rfl]
  exact headerQuoted_gen _ b hcne hcq

theorem findHeaders_hdrBlock (k v b : List Char) (hk : k ≠ [])
    (hkq : ∀ c ∈ k, c ≠ '"') (hvq : ∀ c ∈ v, c ≠ '"') :
    findHeaders (hdrBlock k v ++ b) = (k ++ ':' :: ' ' :: v) :: findHeaders b := by
  have hshape : hdrBlock k v ++ b =
      [' ', '\\', '\n', ' ', ' '] ++
        ('-' :: 'H' :: ' ' :: '"' :: ((k ++ ':' :: ' ' :: v) ++ '"' :: b)) := by
    rw [hdrBlock_eq]
    simp [List.append_assoc]
  rw [hshape]
  rw [findHeaders_append_none _ _ (hsafe_no_dash _ (by decide))]
  rw [findHeaders_cons, matchHeaderAt_block k v b hk hkq hvq]

theorem findHeaders_join (hdrsL : List (List Char × List Char)) (tail : List Char)
    (hh : ∀ kv ∈ hdrsL, kv.1 ≠ [] ∧ (∀ c ∈ kv.1, c ≠ '"') ∧ (∀ c ∈ kv.2, c ≠ '"'))
    (htail : findHeaders tail = []) :
    findHeaders (hdrsJoin hdrsL ++ tail) =
      hdrsL.map (fun kv => kv.1 ++ ':' :: ' ' :: kv.2) := by
  induction hdrsL with
  | nil => simpa [hdrsJoin] using htail
  | cons kv rest ih =>
    have hstep : hdrsJoin (kv :: rest) ++ tail =
        hdrBlock kv.1 kv.2 ++ (hdrsJoin rest ++ tail) := by
      simp [hdrsJoin, List.append_assoc]
    rw [hstep]
    obtain ⟨h1, h2, h3⟩ := hh kv (by simp)
    rw [findHeaders_hdrBlock kv.1 kv.2 _ h1 h2 h3]
    rw [ih (fun kv' h' => hh kv' (by simp [h']))]
    rfl

/-! ### split/join/trim recovery of a header row -/

theorem splitOnColon_cons (c : Char) (rest : List Char) :
    splitOnColon (c :: rest) =
      if c = ':' then [] :: splitOnColon rest
      else (c :: (splitOnColon rest).headD []) :: (splitOnColon rest).tail := rfl

theorem splitOnColon_ne_nil (l : List Char) : splitOnColon l ≠ [] := by
  cases l with
  | nil => simp [splitOnColon]
  | cons c rest =>
    rw [splitOnColon_cons]
    split <;> simp

theorem splitOnColon_append (k w : List Char) (hkc : ∀ c ∈ k, c ≠ ':') :
    splitOnColon (k ++ ':' :: w) = k :: splitOnColon w := by
  induction k with
  | nil => rw [List.nil_append, splitOnColon_cons, if_pos rfl]
  | cons c k' ih =>
    rw [List.cons_append, splitOnColon_cons, if_neg (hkc c (by simp))]
    rw [ih (fun c' hc' => hkc c' (by simp [hc']))]
    simp

theorem joinColon_cons_head (c : Char) (h : List Char) (t : List (List Char)) :
    joinColon ((c :: h) :: t) = c :: joinColon (h :: t) := by
  cases t with
  | nil => rfl
  | cons y t' => rfl

theorem joinColon_splitOnColon (w : List Char) : joinColon (splitOnColon w) = w := by
  induction w with
  | nil => rfl
  | cons c rest ih =>
    rw [splitOnColon_cons]
    by_cases hc : c = ':'
    · rw [if_pos hc]
      obtain ⟨h, t, heq⟩ := List.exists_cons_of_ne_nil (splitOnColon_ne_nil rest)
      rw [heq]
      show ([] : List Char) ++ ':' :: joinColon (h :: t) = c :: rest
      rw [List.nil_append, ← heq, ih, hc]
    · rw [if_neg hc]
      obtain ⟨h, t, heq⟩ := List.exists_cons_of_ne_nil (splitOnColon_ne_nil rest)
      rw [heq]
      simp only [List.headD_cons, List.tail_cons]
      rw [joinColon_cons_head, ← heq, ih]

theorem jsTrim_cons_ws (c : Char) (v : List Char) (hc : isJsWS c = true) :
    jsTrim (c :: v) = jsTrim v := by
  unfold jsTrim
  rw [List.dropWhile_cons_of_pos hc]

theorem extractHeaderRow_content (k v : List Char) (hk : k ≠ [])
    (hkc : ∀ c ∈ k, c ≠ ':') (htk : jsTrim k = k) (htv : jsTrim v = v) :
    extractHeaderRow (k ++ ':' :: ' ' :: v) =
      some { key := k.asString, value := v.asString, enabled := true } := by
  unfold extractHeaderRow
  rw [splitOnColon_append k (' ' :: v) hkc]
  show (if k.isEmpty then none
    else some (HeaderRow.mk ((jsTrim k).asString)
      ((jsTrim (joinColon (splitOnColon (' ' :: v)))).asString) true)) = _
  rw [if_neg (by simp [isEmpty_false_of_ne_nil hk])]
  rw [joinColon_splitOnColon, jsTrim_cons_ws ' ' v (by decide), htv, htk]

theorem filterMap_eq_map_of_some {f : α → Option β} {g : α → β} {l : List α}
    (h : ∀ x ∈ l, f x = some (g x)) : l.filterMap f = l.map g := by
  induction l with
  | nil => rfl
  | cons a l ih =>
    simp only [List.filterMap_cons, h a (by simp), List.map_cons]
    rw [ih (fun x hx => h x (by simp [hx]))]

/-! ### Structure of the generated cURL command -/

theorem foldl_hdrBlocks (hdrs : List (List Char × List Char)) (c : List Char) :
    hdrs.foldl (fun acc kv => acc ++ hdrBlock kv.1 kv.2) c = c ++ hdrsJoin hdrs := by
  induction hdrs generalizing c with
  | nil => simp [hdrsJoin]
  | cons kv rest ih =>
    rw [List.foldl_cons, ih]
    simp [hdrsJoin, List.append_assoc]

theorem genCurlList_shape (method url : List Char) (hdrsL : List (List Char × List Char))
    (body : Option (List Char)) :
    genCurlList method url hdrsL body =
      'c' :: 'u' :: 'r' :: 'l' :: ' ' :: '"' ::
        (url ++ '"' ::
          ((if method ≠ getChars then methodBlock method else []) ++
            (hdrsJoin hdrsL ++
              (match body with
               | some b => if b ≠ [] ∧ method ≠ getChars then bodyBlock b else []
               | none => [])))) := by
  simp only [genCurlList, foldl_hdrBlocks]
  cases body with
  | none =>
    by_cases hm : method ≠ getChars <;>
      simp [hm, List.append_assoc]
  | some b =>
    by_cases hm : method ≠ getChars <;> by_cases hb : b ≠ [] <;>
      simp [hm, hb, List.append_assoc]

/-! ### Method extraction from the generated command -/

theorem findMethod_get (url : List Char) (hdrsL : List (List Char × List Char))
    (hu : ∀ c ∈ url, isJsWS c = false)
    (hh : ∀ kv ∈ hdrsL, findMethodMatch ((kv.1 ++ ':' :: ' ' :: kv.2) ++ ['"']) = none) :
    findMethodMatch ('c' :: 'u' :: 'r' :: 'l' :: ' ' :: '"' ::
      (url ++ '"' :: hdrsJoin hdrsL)) = none := by
  have hshape : ('c' :: 'u' :: 'r' :: 'l' :: ' ' :: '"' :: (url ++ '"' :: hdrsJoin hdrsL))
      = (['c', 'u', 'r', 'l', ' ', '"'] : List Char) ++ (url ++ '"' :: hdrsJoin hdrsL) := by
    simp
  rw [hshape, findMethodMatch_append_none _ _ (msafe_no_dash _ (by decide)),
    findMethodMatch_append_none url _ (msafe_url _ hu),
    findMethodMatch_cons, matchMethodAt_head (hdrsJoin hdrsL) (by decide)]
  exact findMethodMatch_join hh

theorem findMethod_nonget (m url rest' : List Char)
    (hu : ∀ c ∈ url, isJsWS c = false)
    (hm1 : m ≠ []) (hmw : ∀ c ∈ m, isWordCh c = true) (hmws : ∀ c ∈ m, isJsWS c = false)
    (hr : ∀ d t, rest' = d :: t → isWordCh d = false) :
    findMethodMatch ('c' :: 'u' :: 'r' :: 'l' :: ' ' :: '"' ::
      (url ++ '"' :: (methodBlock m ++ rest'))) = some m := by
  have hshape : ('c' :: 'u' :: 'r' :: 'l' :: ' ' :: '"' ::
        (url ++ '"' :: (methodBlock m ++ rest')))
      = (['c', 'u', 'r', 'l', ' ', '"'] : List Char) ++
          (url ++ '"' :: (methodBlock m ++ rest')) := by
    simp
  rw [hshape, findMethodMatch_append_none _ _ (msafe_no_dash _ (by decide)),
    findMethodMatch_append_none url _ (msafe_url _ hu),
    findMethodMatch_cons, matchMethodAt_head _ (by decide)]
  have hshape2 : methodBlock m ++ rest'
      = ([' ', '\\', '\n', ' ', ' '] : List Char) ++ ('-' :: 'X' :: ' ' :: (m ++ rest')) := by
    simp [methodBlock, List.append_assoc]
  rw [hshape2, findMethodMatch_append_none _ _ (msafe_no_dash _ (by decide)),
    findMethodMatch_cons, matchMethodAt_step]
  obtain ⟨hd0, m', rfl⟩ := List.exists_cons_of_ne_nil hm1
  have hws : ((' ' :: (hd0 :: m' ++ rest')).takeWhile isJsWS) = [' '] := by
    rw [List.takeWhile_cons_of_pos (by decide), List.cons_append,
      List.takeWhile_cons_of_neg (by simp [hmws hd0 (by simp)])]
  have hdw : ((' ' :: (hd0 :: m' ++ rest')).dropWhile isJsWS) = hd0 :: m' ++ rest' := by
    rw [List.dropWhile_cons_of_pos (by decide), List.cons_append,
      List.dropWhile_cons_of_neg (by simp [hmws hd0 (by simp)])]
  have hword : ((hd0 :: m' ++ rest').takeWhile isWordCh) = hd0 :: m' := by
    cases hr' : rest' with
    | nil =>
      rw [List.append_nil]
      exact takeWhile_of_all hmw
    | cons d t =>
      exact takeWhile_run_stop _ t hmw (hr d t hr')
  rw [hws, hdw, hword, if_neg (by decide : ¬(([' '] : List Char).isEmpty = true)),
    if_neg (by simp : ¬((hd0 :: m').isEmpty = true))]

theorem findHeaders_gen (u MB TAIL : List Char) (hdrsL : List (List Char × List Char))
    (huw : ∀ c ∈ u, isJsWS c = false)
    (hh3 : ∀ kv ∈ hdrsL, kv.1 ≠ [] ∧ (∀ c ∈ kv.1, c ≠ '"') ∧ (∀ c ∈ kv.2, c ≠ '"'))
    (hmb : ∀ s, s <:+ MB → s ≠ [] → matchHeaderAt (s ++ (hdrsJoin hdrsL ++ TAIL)) = none)
    (htail : findHeaders TAIL = []) :
    findHeaders ('c' :: 'u' :: 'r' :: 'l' :: ' ' :: '"' ::
        (u ++ '"' :: (MB ++ (hdrsJoin hdrsL ++ TAIL)))) =
      hdrsL.map (fun kv => kv.1 ++ ':' :: ' ' :: kv.2) := by
  have hsh : ('c' :: 'u' :: 'r' :: 'l' :: ' ' :: '"' ::
        (u ++ '"' :: (MB ++ (hdrsJoin hdrsL ++ TAIL))))
      = (['c', 'u', 'r', 'l', ' ', '"'] : List Char) ++
          (u ++ '"' :: (MB ++ (hdrsJoin hdrsL ++ TAIL))) := by
    simp
  rw [hsh, findHeaders_append_none _ _ (hsafe_no_dash _ (by decide)),
    findHeaders_append_none u _ (hsafe_url _ huw),
    findHeaders_cons, matchHeaderAt_head _ (by decide)]
  show findHeaders (MB ++ (hdrsJoin hdrsL ++ TAIL)) = _
  rw [findHeaders_append_none MB _ hmb]
  exact findHeaders_join hdrsL TAIL hh3 htail

theorem filterMap_rows (hdrs : List (String × String))
    (hh : ∀ kv ∈ hdrs, HeaderOk kv.1.toList kv.2.toList) :
    List.filterMap extractHeaderRow
      ((hdrs.map (fun kv => (kv.1.toList, kv.2.toList))).map
        (fun kv => kv.1 ++ ':' :: ' ' :: kv.2))
      = hdrs.map (fun kv => HeaderRow.mk kv.1 kv.2 true) := by
  induction hdrs with
  | nil => rfl
  | cons p r ih =>
    obtain ⟨h1, h2, h3, h4, h5, h6⟩ := hh p (by simp)
    have hrow : extractHeaderRow (p.1.toList ++ ':' :: ' ' :: p.2.toList)
        = some (HeaderRow.mk p.1 p.2 true) :=
      extractHeaderRow_content p.1.toList p.2.toList h1 (fun c hc => (h2 c hc).2) h4 h5
    simp only [List.map_cons, List.filterMap_cons, hrow]
    rw [ih (fun kv hkv => hh kv (by simp [hkv]))]

/-- C9 (amended).  The cURL round trip: a request built with a method from
the builder's method list, a non-empty full URL containing no whitespace or
double quote, enabled header rows satisfying `HeaderOk` (no quotes, no colon
in the name, trimmed, and not containing a method-flag pattern), and a body
— emitted only for non-GET — containing no double quote, is recovered
exactly by `extractRequestFromJob`: same method (GET when no `-X` was
emitted), same full URL, and the same header name/value pairs in order. -/
theorem curl_roundtrip (tableName method fullUrl : String)
    (hdrs : List (String × String)) (body : Option String)
    (hm : method ∈ (["GET", "POST", "PUT", "PATCH", "DELETE"] : List String))
    (hu1 : fullUrl ≠ "")
    (hu2 : ∀ c ∈ fullUrl.toList, isJsWS c = false ∧ c ≠ '"')
    (hh : ∀ kv ∈ hdrs, HeaderOk kv.1.toList kv.2.toList)
    (hb : ∀ b, body = some b → ∀ c ∈ b.toList, c ≠ '"') :
    extractRequestFromJob tableName (generateCurl method fullUrl hdrs body) =
      some { name := if tableName = "" then "Saved Request" else tableName
             method := method
             url := fullUrl
             headers := hdrs.map (fun kv => HeaderRow.mk kv.1 kv.2 true)
             authType := "none"
             bodyType := "none"
             jsonBody := "" } := by
  have hune : fullUrl.toList ≠ [] := fun h => hu1 (by rw [← asString_toList fullUrl, h]; rfl)
  have huw : ∀ c ∈ fullUrl.toList, isJsWS c = false := fun c hc => (hu2 c hc).1
  have huq : ∀ c ∈ fullUrl.toList, c ≠ '"' := fun c hc => (hu2 c hc).2
  have hhL : ∀ kv ∈ hdrs.map (fun kv => (kv.1.toList, kv.2.toList)),
      kv.1 ≠ [] ∧ (∀ c ∈ kv.1, c ≠ '"' ∧ c ≠ ':') ∧ (∀ c ∈ kv.2, c ≠ '"') ∧
        jsTrim kv.1 = kv.1 ∧ jsTrim kv.2 = kv.2 ∧
        findMethodMatch ((kv.1 ++ ':' :: ' ' :: kv.2) ++ ['"']) = none := by
    intro kv hkv
    obtain ⟨p, hp, rfl⟩ := List.mem_map.mp hkv
    exact hh p hp
  have hh3 : ∀ kv ∈ hdrs.map (fun kv => (kv.1.toList, kv.2.toList)),
      kv.1 ≠ [] ∧ (∀ c ∈ kv.1, c ≠ '"') ∧ (∀ c ∈ kv.2, c ≠ '"') :=
    fun kv hkv => ⟨(hhL kv hkv).1, fun c hc => ((hhL kv hkv).2.1 c hc).1, (hhL kv hkv).2.2.1⟩
  have hhm : ∀ kv ∈ hdrs.map (fun kv => (kv.1.toList, kv.2.toList)),
      findMethodMatch ((kv.1 ++ ':' :: ' ' :: kv.2) ++ ['"']) = none :=
    fun kv hkv => (hhL kv hkv).2.2.2.2.2
  have hgen : generateCurl method fullUrl hdrs body ≠ "" := by
    apply asString_ne_empty
    rw [genCurlList_shape]
    simp
  have hrows : ∀ kv ∈ hdrs.map (fun kv => (kv.1.toList, kv.2.toList)),
      extractHeaderRow (kv.1 ++ ':' :: ' ' :: kv.2) =
        some (HeaderRow.mk kv.1.asString kv.2.asString true) := by
    intro kv hkv
    obtain ⟨h1, h2, _, h4, h5, _⟩ := hhL kv hkv
    exact extractHeaderRow_content kv.1 kv.2 h1 (fun c hc => (h2 c hc).2) h4 h5
  have hTne : ∀ (TAIL : List Char) d t, TAIL = [] ∨ (∃ bb, TAIL = bodyBlock bb) →
      TAIL = d :: t → isWordCh d = false := by
    rintro TAIL d t (rfl | ⟨bb, rfl⟩) heq
    · exact absurd heq (by simp)
    · rw [bodyBlock, List.cons_append] at heq
      injection heq with h1 _
      rw [← h1]
      decide
  have hmfacts : method.toList = getChars ∨
      (method.toList ≠ getChars ∧ method.toList ≠ [] ∧
        (∀ c ∈ method.toList, isWordCh c = true) ∧
        (∀ c ∈ method.toList, isJsWS c = false)) := by
    fin_cases hm <;> decide
  have hL : (generateCurl method fullUrl hdrs body).toList
      = genCurlList method.toList fullUrl.toList
          (hdrs.map (fun kv => (kv.1.toList, kv.2.toList))) (body.map String.toList) := rfl
  rw [genCurlList_shape] at hL
  simp only [extractRequestFromJob, if_neg hgen, hL]
  rcases hmfacts with hget | ⟨hne0, hm0, hmw, hmws⟩
  · -- GET: no -X block, no body block
    have hMB : (if method.toList ≠ getChars then methodBlock method.toList else []) = [] := by
      rw [if_neg (not_not_intro hget)]
    have hTAIL : (match body.map String.toList with
        | some b => if b ≠ [] ∧ method.toList ≠ getChars then bodyBlock b else []
        | none => []) = ([] : List Char) := by
      cases body with
      | none => rfl
      | some b =>
        show (if b.toList ≠ [] ∧ method.toList ≠ getChars then bodyBlock b.toList else []) = []
        rw [if_neg (fun hc => hc.2 hget)]
    rw [hMB, hTAIL]
    have hmethod : findMethodMatch ('c' :: 'u' :: 'r' :: 'l' :: ' ' :: '"' ::
        (fullUrl.toList ++ '"' ::
          (([] : List Char) ++
            (hdrsJoin (hdrs.map (fun kv => (kv.1.toList, kv.2.toList))) ++ ([] : List Char))))) =
        none := by
      simp only [List.nil_append, List.append_nil]
      exact findMethod_get fullUrl.toList _ huw hhm
    have hurl := findUrlMatch_gen fullUrl.toList
      (([] : List Char) ++ (hdrsJoin (hdrs.map (fun kv => (kv.1.toList, kv.2.toList))) ++ ([] : List Char)))
      hune huq
    have hheads := findHeaders_gen fullUrl.toList [] []
      (hdrs.map (fun kv => (kv.1.toList, kv.2.toList))) huw hh3
      (fun s hs hne => absurd (List.suffix_nil.mp hs) hne) rfl
    rw [hmethod, hurl, hheads]
    have hmeq : method = "GET" := by
      rw [← asString_toList method, hget]
      rfl
    subst hmeq
    rw [filterMap_rows hdrs hh]
    rfl
  · -- non-GET: -X block present
    have hMB : (if method.toList ≠ getChars then methodBlock method.toList else [])
        = methodBlock method.toList := by
      rw [if_pos hne0]
    rw [hMB]
    have hTprop : (match body.map String.toList with
        | some b => if b ≠ [] ∧ method.toList ≠ getChars then bodyBlock b else []
        | none => ([] : List Char)) = [] ∨
        (∃ bb, (match body.map String.toList with
          | some b => if b ≠ [] ∧ method.toList ≠ getChars then bodyBlock b else []
          | none => ([] : List Char)) = bodyBlock bb ∧ '"' ∉ bb) := by
      cases body with
      | none => exact Or.inl rfl
      | some b =>
        simp only [Option.map_some']
        by_cases hb0 : b.toList ≠ []
        · refine Or.inr ⟨b.toList, ?_, ?_⟩
          · rw [if_pos ⟨hb0, hne0⟩]
          · intro hmem
            exact (hb b rfl '"' hmem) rfl
        · exact Or.inl (by rw [if_neg (fun hc => hb0 hc.1)])
    have htail : findHeaders (match body.map String.toList with
        | some b => if b ≠ [] ∧ method.toList ≠ getChars then bodyBlock b else []
        | none => ([] : List Char)) = [] := by
      rcases hTprop with heq | ⟨bb, heq, hbbq⟩
      · rw [heq]
        rfl
      · rw [heq]
        apply findHeaders_no_quote
        intro hmem
        rw [bodyBlock] at hmem
        rcases List.mem_append.mp hmem with h | h
        · rcases List.mem_append.mp h with h2 | h2
          · simp only [List.mem_cons, List.not_mem_nil, or_false] at h2
            rcases h2 with h3 | h3 | h3 | h3 | h3 | h3 | h3 | h3 | h3 <;> exact absurd h3.symm (by decide)
          · exact hbbq h2
        · simp only [List.mem_cons, List.not_mem_nil, or_false] at h
          exact absurd h.symm (by decide)
    have hr : ∀ d t, (hdrsJoin (hdrs.map (fun kv => (kv.1.toList, kv.2.toList))) ++
        (match body.map String.toList with
          | some b => if b ≠ [] ∧ method.toList ≠ getChars then bodyBlock b else []
          | none => ([] : List Char))) = d :: t → isWordCh d = false := by
      intro d t heq
      cases hcase : hdrs.map (fun kv => (kv.1.toList, kv.2.toList)) with
      | nil =>
        rw [hcase] at heq
        simp only [hdrsJoin, List.map_nil, List.join_nil, List.nil_append] at heq
        rcases hTprop with hT | ⟨bb, hT, -⟩
        · rw [hT] at heq
          exact absurd heq (by simp)
        · rw [hT, bodyBlock, List.cons_append] at heq
          injection heq with h1 _
          rw [← h1]
          decide
      | cons kv r =>
        rw [hcase] at heq
        simp only [hdrsJoin, List.map_cons, List.join, hdrBlock, List.cons_append,
          List.append_assoc] at heq
        injection heq with h1 _
        rw [← h1]
        decide
    have hmethod := findMethod_nonget method.toList fullUrl.toList _ huw hm0 hmw hmws hr
    have hurl := findUrlMatch_gen fullUrl.toList
      (methodBlock method.toList ++
        (hdrsJoin (hdrs.map (fun kv => (kv.1.toList, kv.2.toList))) ++
          (match body.map String.toList with
            | some b => if b ≠ [] ∧ method.toList ≠ getChars then bodyBlock b else []
            | none => ([] : List Char))))
      hune huq
    have hheads := findHeaders_gen fullUrl.toList (methodBlock method.toList) _
      (hdrs.map (fun kv => (kv.1.toList, kv.2.toList))) huw hh3
      (hsafe_methodBlock _ hmw) htail
    rw [hmethod, hurl, hheads]
    rw [filterMap_rows hdrs hh]
    rfl

/-- Counterexample for C9 as stated: with method GET, an absolute URL and the
single enabled header `X-Note: go -X fast` — whose name and value contain no
double quote or newline, as the claim requires — the extractor reads the
method back as `fast`, not GET, because the `-X` pattern inside the header
value is the first match in the whole command. -/
theorem curl_roundtrip_counterexample :
    (∀ c ∈ "X-Note".toList, c ≠ '"' ∧ c ≠ '\n') ∧
    (∀ c ∈ "go -X fast".toList, c ≠ '"' ∧ c ≠ '\n') ∧
    "http://example.com/items" ≠ "" ∧
    (extractRequestFromJob "t" (generateCurl "GET" "http://example.com/items"
        [("X-Note", "go -X fast")] none)).map SavedRequest.method = some "fast" ∧
    (some "fast" : Option String) ≠ some "GET" := by
  refine ⟨by decide, by decide, by decide, ?_, by decide⟩
  decide

/-- Witness for the amended C9 at a concrete POST request with two headers
and a body. -/
theorem curl_roundtrip_witness :
    ("POST" ∈ (["GET", "POST", "PUT", "PATCH", "DELETE"] : List String) ∧
      "http://example.com/items?page=1" ≠ "" ∧
      (∀ c ∈ "http://example.com/items?page=1".toList, isJsWS c = false ∧ c ≠ '"') ∧
      (∀ kv ∈ ([("Accept", "application/json"), ("Authorization", "Bearer tok123")] :
          List (String × String)), HeaderOk kv.1.toList kv.2.toList)) ∧
    extractRequestFromJob "t" (generateCurl "POST" "http://example.com/items?page=1"
        [("Accept", "application/json"), ("Authorization", "Bearer tok123")] (some "a=1")) =
      some { name := if "t" = "" then "Saved Request" else "t"
             method := "POST"
             url := "http://example.com/items?page=1"
             headers := ([("Accept", "application/json"), ("Authorization", "Bearer tok123")] :
               List (String × String)).map (fun kv => HeaderRow.mk kv.1 kv.2 true)
             authType := "none"
             bodyType := "none"
             jsonBody := "" } :=
  ⟨⟨by decide, by decide, by decide, by decide⟩,
    curl_roundtrip "t" "POST" "http://example.com/items?page=1"
      [("Accept", "application/json"), ("Authorization", "Bearer tok123")] (some "a=1")
      (by decide) (by decide) (by decide) (by decide)
      (by intro b hb; cases hb; decide)⟩

/-- Counterexample for C6 as stated: a stored command with a `-d` body flag
and no `-X` method flag is read back by `extractRequestFromJob` with method
GET, not POST — the extractor never inspects body flags. -/
theorem extract_body_flag_counterexample :
    containsSeq ['-', 'd'] bodyFlagCmd.toList = true ∧
    containsSeq ['-', 'X'] bodyFlagCmd.toList = false ∧
    findMethodMatch bodyFlagCmd.toList = none ∧
    (extractRequestFromJob "t" bodyFlagCmd).map SavedRequest.method = some "GET" ∧
    (extractRequestFromJob "t" bodyFlagCmd).map SavedRequest.method ≠ some "POST" := by
  refine ⟨by decide, by decide, by decide, ?_, ?_⟩ <;> decide

/-- C6 (amended).  For every non-empty stored request description in which
the method pattern `-X\s+\w` does not match anywhere — in particular for one
that carries a body flag but no method flag — `extractRequestFromJob` yields
method GET: body flags never imply POST here. -/
theorem extract_no_method_flag_get (tableName s : String) (hs : s ≠ "")
    (h : findMethodMatch s.toList = none) :
    (extractRequestFromJob tableName s).map SavedRequest.method = some "GET" := by
  simp only [extractRequestFromJob, if_neg hs, h]
  rfl

/-- Witness for the amended C6 on the concrete `-d`-carrying command. -/
theorem extract_no_method_flag_get_witness :
    (bodyFlagCmd ≠ "" ∧ findMethodMatch bodyFlagCmd.toList = none) ∧
    (extractRequestFromJob "jobs" bodyFlagCmd).map SavedRequest.method = some "GET" :=
  ⟨⟨by decide, by decide⟩,
    extract_no_method_flag_get "jobs" bodyFlagCmd (by decide) (by decide)⟩
